import Mathlib

/-!
# kfulint: three lint rules, embedded and checked against their specification

The development embeds

* `checkers/deferAtTheEnd_checker.go`   (namespace `kfulint.checkers`),
* `lint/deprecatedComment_checker.go`  (namespace `kfulint.lint`),
* `lint/unexportedCall_checker.go`     (namespace `kfulint.lint`),

over a model of the parts of `go/ast` and `go/types` these rules read.

Conventions.

* A Go `string` is a Lean `String`; `len(s)` is `s.utf8ByteSize` (Go source text, comments
  included, is UTF-8).
* A nilable pointer or interface is an `Option`.
* Code that can panic (index or slice out of range) returns `Except Panic _`.
* A rule does not print: it returns the list of `Warning`s it hands to `ctx.Warn`, in order.
  A `Warning` records the arguments of the `ctx.Warn` call (node, format string, arguments).
* What the rules take from outside is a parameter: the Unicode tables behind
  `unicode.ToUpper` and `unicode.IsUpper`, `astfmt.Sprint`, and the type resolver
  `TypesInfo.TypeOf`. Theorems hold for every value of these parameters; the examples use
  `Char.toUpper` and `Char.isUpper`, which agree with Unicode on the ASCII text of the examples.
* `ast.Inspect` is the depth-first walk of go/ast, with the state its callback acts on made
  explicit. The walker that drives the unexported-call rule over the functions of a file is
  not among the three files; `runUnexportedCall` models it from the specification.
* Definitions come first (the embedding of each file, then the vocabulary of the properties
  and the example programs), theorems after them.
-/

namespace kfulint

/-! ## go/ast -/

namespace ast

/-- Node `*ast.Ident`. -/
structure Ident where
  NamePos : Nat
  Name : String
deriving DecidableEq, Repr

/-- Node `*ast.CommentGroup` as a doc-comment visitor reads it: where it starts, and `Text`,
the value of `doc.Text()`: the comment text without comment markers, its lines joined by
newlines, with a newline after the last line (go/ast renders it). -/
structure CommentGroup where
  Pos : Nat
  Text : String
deriving DecidableEq, Repr

mutual
/-- Interface `ast.Expr`. The node kinds the rules look at are spelled out; every other
expression kind is `Other`, with its kind name and its child nodes in source order. -/
inductive Expr where
  | Ident (id : Ident)
  | BasicLit (ValuePos : Nat) (Value : String)
  | CallExpr (call : CallExpr)
  | SelectorExpr (sel : SelectorExpr)
  | FuncLit (lit : FuncLit)
  | FuncType (typ : FuncType)
  | ParenExpr (Lparen : Nat) (X : Expr)
  | StarExpr (Star : Nat) (X : Expr)
  | UnaryExpr (OpPos : Nat) (Op : String) (X : Expr)
  | BinaryExpr (X : Expr) (Op : String) (Y : Expr)
  | Other (kind : String) (children : List Node)
/-- Node `*ast.CallExpr`. -/
inductive CallExpr where
  | mk (Fun : Expr) (Lparen : Nat) (Args : List Expr)
/-- Node `*ast.SelectorExpr`. -/
inductive SelectorExpr where
  | mk (X : Expr) (Sel : Ident)
/-- Node `*ast.FuncLit`. -/
inductive FuncLit where
  | mk (Typ : FuncType) (Body : BlockStmt)
/-- Node `*ast.Field`. -/
inductive Field where
  | mk (Names : List Ident) (Typ : Expr)
/-- Node `*ast.FieldList`. -/
inductive FieldList where
  | mk (Opening : Nat) (List : List Field)
/-- Node `*ast.FuncType`. -/
inductive FuncType where
  | mk (Func : Nat) (Params : FieldList) (Results : Option FieldList)
/-- Interface `ast.Stmt`. As for `Expr`, statement kinds the rules do not single out
(switch, select, range, case clauses, ...) are `Other`. -/
inductive Stmt where
  | ExprStmt (X : Expr)
  | AssignStmt (Lhs : List Expr) (Tok : String) (Rhs : List Expr)
  | GoStmt (Go : Nat) (Call : CallExpr)
  | DeferStmt (stmt : DeferStmt)
  | ReturnStmt (stmt : ReturnStmt)
  | BlockStmt (block : BlockStmt)
  | IfStmt (If : Nat) (Init : Option Stmt) (Cond : Expr) (Body : BlockStmt) (Else : Option Stmt)
  | ForStmt (For : Nat) (Init : Option Stmt) (Cond : Option Expr) (Post : Option Stmt)
      (Body : BlockStmt)
  | Other (kind : String) (children : List Node)
/-- Node `*ast.DeferStmt`. -/
inductive DeferStmt where
  | mk (Defer : Nat) (Call : CallExpr)
/-- Node `*ast.ReturnStmt`. -/
inductive ReturnStmt where
  | mk (Return : Nat) (Results : List Expr)
/-- Node `*ast.BlockStmt`. -/
inductive BlockStmt where
  | mk (Lbrace : Nat) (List : List Stmt)
/-- Interface `ast.Node`. -/
inductive Node where
  | Expr (e : Expr)
  | Stmt (s : Stmt)
  | CommentGroup (g : CommentGroup)
  | Field (f : Field)
  | FieldList (l : FieldList)
end

/-- Field `Fun` of a call expression. -/
def CallExpr.Fun : CallExpr → Expr
  | .mk f _ _ => f

/-- Field `Args` of a call expression. -/
def CallExpr.Args : CallExpr → List Expr
  | .mk _ _ args => args

/-- Field `X` of a selector expression. -/
def SelectorExpr.X : SelectorExpr → Expr
  | .mk x _ => x

/-- Field `Sel` of a selector expression. -/
def SelectorExpr.Sel : SelectorExpr → Ident
  | .mk _ sel => sel

/-- Field `Type` of a function literal. -/
def FuncLit.Typ : FuncLit → FuncType
  | .mk t _ => t

/-- Field `Names` of a field. -/
def Field.Names : Field → List Ident
  | .mk names _ => names

/-- Field `List` of a field list. -/
def FieldList.List : FieldList → List Field
  | .mk _ l => l

/-- Field `Call` of a defer statement. -/
def DeferStmt.Call : DeferStmt → CallExpr
  | .mk _ call => call

/-- Field `Results` of a return statement. -/
def ReturnStmt.Results : ReturnStmt → List Expr
  | .mk _ results => results

/-- Field `List` of a block statement. -/
def BlockStmt.List : BlockStmt → List Stmt
  | .mk _ l => l

/-- Node `*ast.FuncDecl`; `Recv` and `Body` may be nil. -/
structure FuncDecl where
  Recv : Option FieldList
  Name : Ident
  Typ : FuncType
  Body : Option BlockStmt

section Inspect

variable {σ : Type}

/-- Go `walkIdentList`. -/
def walkIdentList (f : Option Node → σ → Bool × σ) : List Ident → σ → σ
  | [], s => s
  | x :: xs, s =>
    let r := f (some (.Expr (.Ident x))) s
    walkIdentList f xs (if r.1 then (f none r.2).2 else r.2)

mutual
/-- Go `ast.Walk` with the visitor of `ast.Inspect` on an expression: the callback `f` sees the
node; if it answers true, the children are walked in the order of `ast.Walk` and `f` is called
with nil afterwards. The state `s` is what the callback acts on. -/
def Expr.walk (f : Option Node → σ → Bool × σ) : Expr → σ → σ
  | .Ident id, s =>
    let r := f (some (.Expr (.Ident id))) s
    if r.1 then (f none r.2).2 else r.2
  | .BasicLit p v, s =>
    let r := f (some (.Expr (.BasicLit p v))) s
    if r.1 then (f none r.2).2 else r.2
  | .CallExpr call, s => call.walk f s
  | .SelectorExpr sel, s => sel.walk f s
  | .FuncLit lit, s => lit.walk f s
  | .FuncType typ, s => typ.walk f s
  | .ParenExpr p x, s =>
    let r := f (some (.Expr (.ParenExpr p x))) s
    if r.1 then (f none (x.walk f r.2)).2 else r.2
  | .StarExpr p x, s =>
    let r := f (some (.Expr (.StarExpr p x))) s
    if r.1 then (f none (x.walk f r.2)).2 else r.2
  | .UnaryExpr p op x, s =>
    let r := f (some (.Expr (.UnaryExpr p op x))) s
    if r.1 then (f none (x.walk f r.2)).2 else r.2
  | .BinaryExpr x op y, s =>
    let r := f (some (.Expr (.BinaryExpr x op y))) s
    if r.1 then (f none (y.walk f (x.walk f r.2))).2 else r.2
  | .Other kind children, s =>
    let r := f (some (.Expr (.Other kind children))) s
    if r.1 then (f none (walkNodes f children r.2)).2 else r.2
/-- Walk of an expression that may be nil (`if n.X != nil`). -/
def walkOptExpr (f : Option Node → σ → Bool × σ) : Option Expr → σ → σ
  | none, s => s
  | some x, s => x.walk f s
/-- Go `walkExprList`. -/
def walkExprList (f : Option Node → σ → Bool × σ) : List Expr → σ → σ
  | [], s => s
  | x :: xs, s => walkExprList f xs (x.walk f s)
/-- Walk of a call expression: `Fun`, then `Args`. -/
def CallExpr.walk (f : Option Node → σ → Bool × σ) : CallExpr → σ → σ
  | .mk fn lp args, s =>
    let r := f (some (.Expr (.CallExpr (.mk fn lp args)))) s
    if r.1 then (f none (walkExprList f args (fn.walk f r.2))).2 else r.2
/-- Walk of a selector expression: `X`, then the identifier `Sel`. -/
def SelectorExpr.walk (f : Option Node → σ → Bool × σ) : SelectorExpr → σ → σ
  | .mk x sel, s =>
    let r := f (some (.Expr (.SelectorExpr (.mk x sel)))) s
    if r.1 then
      let s1 := x.walk f r.2
      let r2 := f (some (.Expr (.Ident sel))) s1
      let s2 := if r2.1 then (f none r2.2).2 else r2.2
      (f none s2).2
    else r.2
/-- Walk of a function literal: `Type`, then `Body`. -/
def FuncLit.walk (f : Option Node → σ → Bool × σ) : FuncLit → σ → σ
  | .mk typ body, s =>
    let r := f (some (.Expr (.FuncLit (.mk typ body)))) s
    if r.1 then (f none (body.walk f (typ.walk f r.2))).2 else r.2
/-- Walk of a field: `Names`, then `Type`. -/
def Field.walk (f : Option Node → σ → Bool × σ) : Field → σ → σ
  | .mk names typ, s =>
    let r := f (some (.Field (.mk names typ))) s
    if r.1 then
      (f none (typ.walk f (walkIdentList f names r.2))).2
    else r.2
/-- Walk of the fields of a field list, in order. -/
def walkFields (f : Option Node → σ → Bool × σ) : List Field → σ → σ
  | [], s => s
  | x :: xs, s => walkFields f xs (x.walk f s)
/-- Walk of a field list. -/
def FieldList.walk (f : Option Node → σ → Bool × σ) : FieldList → σ → σ
  | .mk o l, s =>
    let r := f (some (.FieldList (.mk o l))) s
    if r.1 then (f none (walkFields f l r.2)).2 else r.2
/-- Walk of a field list that may be nil. -/
def walkOptFieldList (f : Option Node → σ → Bool × σ) : Option FieldList → σ → σ
  | none, s => s
  | some x, s => x.walk f s
/-- Walk of a function type: `Params`, then `Results`. -/
def FuncType.walk (f : Option Node → σ → Bool × σ) : FuncType → σ → σ
  | .mk fn params results, s =>
    let r := f (some (.Expr (.FuncType (.mk fn params results)))) s
    if r.1 then
      (f none (walkOptFieldList f results (params.walk f r.2))).2
    else r.2
/-- Walk of a statement. -/
def Stmt.walk (f : Option Node → σ → Bool × σ) : Stmt → σ → σ
  | .ExprStmt x, s =>
    let r := f (some (.Stmt (.ExprStmt x))) s
    if r.1 then (f none (x.walk f r.2)).2 else r.2
  | .AssignStmt lhs tok rhs, s =>
    let r := f (some (.Stmt (.AssignStmt lhs tok rhs))) s
    if r.1 then (f none (walkExprList f rhs (walkExprList f lhs r.2))).2 else r.2
  | .GoStmt g call, s =>
    let r := f (some (.Stmt (.GoStmt g call))) s
    if r.1 then (f none (call.walk f r.2)).2 else r.2
  | .DeferStmt stmt, s => stmt.walk f s
  | .ReturnStmt stmt, s => stmt.walk f s
  | .BlockStmt block, s => block.walk f s
  | .IfStmt i init cond body els, s =>
    let r := f (some (.Stmt (.IfStmt i init cond body els))) s
    if r.1 then
      (f none (walkOptStmt f els (body.walk f (cond.walk f (walkOptStmt f init r.2))))).2
    else r.2
  | .ForStmt fo init cond post body, s =>
    let r := f (some (.Stmt (.ForStmt fo init cond post body))) s
    if r.1 then
      (f none (body.walk f (walkOptStmt f post (walkOptExpr f cond
        (walkOptStmt f init r.2))))).2
    else r.2
  | .Other kind children, s =>
    let r := f (some (.Stmt (.Other kind children))) s
    if r.1 then (f none (walkNodes f children r.2)).2 else r.2
/-- Walk of a statement that may be nil. -/
def walkOptStmt (f : Option Node → σ → Bool × σ) : Option Stmt → σ → σ
  | none, s => s
  | some x, s => x.walk f s
/-- Go `walkStmtList`. -/
def walkStmtList (f : Option Node → σ → Bool × σ) : List Stmt → σ → σ
  | [], s => s
  | x :: xs, s => walkStmtList f xs (x.walk f s)
/-- Walk of a defer statement: its `Call`. -/
def DeferStmt.walk (f : Option Node → σ → Bool × σ) : DeferStmt → σ → σ
  | .mk d call, s =>
    let r := f (some (.Stmt (.DeferStmt (.mk d call)))) s
    if r.1 then (f none (call.walk f r.2)).2 else r.2
/-- Walk of a return statement: its `Results`. -/
def ReturnStmt.walk (f : Option Node → σ → Bool × σ) : ReturnStmt → σ → σ
  | .mk p results, s =>
    let r := f (some (.Stmt (.ReturnStmt (.mk p results)))) s
    if r.1 then (f none (walkExprList f results r.2)).2 else r.2
/-- Walk of a block statement: its `List`. -/
def BlockStmt.walk (f : Option Node → σ → Bool × σ) : BlockStmt → σ → σ
  | .mk lb l, s =>
    let r := f (some (.Stmt (.BlockStmt (.mk lb l)))) s
    if r.1 then (f none (walkStmtList f l r.2)).2 else r.2
/-- Walk of a node. The comments of a comment group are not nodes of the model. -/
def Node.walk (f : Option Node → σ → Bool × σ) : Node → σ → σ
  | .Expr e, s => e.walk f s
  | .Stmt st, s => st.walk f s
  | .CommentGroup g, s =>
    let r := f (some (.CommentGroup g)) s
    if r.1 then (f none r.2).2 else r.2
  | .Field fd, s => fd.walk f s
  | .FieldList l, s => l.walk f s
/-- Walk of the children of an `Other` node, in order. -/
def walkNodes (f : Option Node → σ → Bool × σ) : List Node → σ → σ
  | [], s => s
  | x :: xs, s => walkNodes f xs (x.walk f s)
end

/-- Go `ast.Inspect(node, f)`: depth-first traversal of the tree under `node`, the callback
first on `node`. -/
def Inspect (node : Node) (f : Option Node → σ → Bool × σ) (s : σ) : σ :=
  node.walk f s

end Inspect

/-! ### Vocabulary: the nodes of a tree in pre-order -/

mutual
/-- Nodes of the tree under an expression in pre-order: the node itself, then the nodes under
each child, the children in the order of `ast.Walk`. -/
def Expr.preorder : Expr → List Node
  | .Ident id => [.Expr (.Ident id)]
  | .BasicLit p v => [.Expr (.BasicLit p v)]
  | .CallExpr call => call.preorder
  | .SelectorExpr sel => sel.preorder
  | .FuncLit lit => lit.preorder
  | .FuncType typ => typ.preorder
  | .ParenExpr p x => .Expr (.ParenExpr p x) :: x.preorder
  | .StarExpr p x => .Expr (.StarExpr p x) :: x.preorder
  | .UnaryExpr p op x => .Expr (.UnaryExpr p op x) :: x.preorder
  | .BinaryExpr x op y => .Expr (.BinaryExpr x op y) :: (x.preorder ++ y.preorder)
  | .Other kind children => .Expr (.Other kind children) :: preorderNodes children
/-- Nodes under an expression that may be nil. -/
def preorderOptExpr : Option Expr → List Node
  | none => []
  | some x => x.preorder
/-- Nodes under the expressions of a list, in order. -/
def preorderExprList : List Expr → List Node
  | [] => []
  | x :: xs => x.preorder ++ preorderExprList xs
/-- Nodes under a call expression, in pre-order. -/
def CallExpr.preorder : CallExpr → List Node
  | .mk fn lp args => .Expr (.CallExpr (.mk fn lp args)) :: (fn.preorder ++ preorderExprList args)
/-- Nodes under a selector expression, in pre-order. -/
def SelectorExpr.preorder : SelectorExpr → List Node
  | .mk x sel => .Expr (.SelectorExpr (.mk x sel)) :: (x.preorder ++ [.Expr (.Ident sel)])
/-- Nodes under a function literal, in pre-order. -/
def FuncLit.preorder : FuncLit → List Node
  | .mk typ body => .Expr (.FuncLit (.mk typ body)) :: (typ.preorder ++ body.preorder)
/-- Nodes under a field, in pre-order. -/
def Field.preorder : Field → List Node
  | .mk names typ =>
    .Field (.mk names typ) :: (names.map (fun id => Node.Expr (.Ident id)) ++ typ.preorder)
/-- Nodes under the fields of a list, in order. -/
def preorderFields : List Field → List Node
  | [] => []
  | x :: xs => x.preorder ++ preorderFields xs
/-- Nodes under a field list, in pre-order. -/
def FieldList.preorder : FieldList → List Node
  | .mk o l => .FieldList (.mk o l) :: preorderFields l
/-- Nodes under a field list that may be nil. -/
def preorderOptFieldList : Option FieldList → List Node
  | none => []
  | some x => x.preorder
/-- Nodes under a function type, in pre-order. -/
def FuncType.preorder : FuncType → List Node
  | .mk fn params results =>
    .Expr (.FuncType (.mk fn params results)) ::
      (params.preorder ++ preorderOptFieldList results)
/-- Nodes of the tree under a statement in pre-order. -/
def Stmt.preorder : Stmt → List Node
  | .ExprStmt x => .Stmt (.ExprStmt x) :: x.preorder
  | .AssignStmt lhs tok rhs =>
    .Stmt (.AssignStmt lhs tok rhs) :: (preorderExprList lhs ++ preorderExprList rhs)
  | .GoStmt g call => .Stmt (.GoStmt g call) :: call.preorder
  | .DeferStmt stmt => stmt.preorder
  | .ReturnStmt stmt => stmt.preorder
  | .BlockStmt block => block.preorder
  | .IfStmt i init cond body els =>
    .Stmt (.IfStmt i init cond body els) ::
      (preorderOptStmt init ++ cond.preorder ++ body.preorder ++ preorderOptStmt els)
  | .ForStmt fo init cond post body =>
    .Stmt (.ForStmt fo init cond post body) ::
      (preorderOptStmt init ++ preorderOptExpr cond ++ preorderOptStmt post ++ body.preorder)
  | .Other kind children => .Stmt (.Other kind children) :: preorderNodes children
/-- Nodes under a statement that may be nil. -/
def preorderOptStmt : Option Stmt → List Node
  | none => []
  | some x => x.preorder
/-- Nodes under the statements of a list, in order. -/
def preorderStmtList : List Stmt → List Node
  | [] => []
  | x :: xs => x.preorder ++ preorderStmtList xs
/-- Nodes under a defer statement, in pre-order. -/
def DeferStmt.preorder : DeferStmt → List Node
  | .mk d call => .Stmt (.DeferStmt (.mk d call)) :: call.preorder
/-- Nodes under a return statement, in pre-order. -/
def ReturnStmt.preorder : ReturnStmt → List Node
  | .mk p results => .Stmt (.ReturnStmt (.mk p results)) :: preorderExprList results
/-- Nodes under a block statement, in pre-order: the block, then the nodes under each of its
statements. -/
def BlockStmt.preorder : BlockStmt → List Node
  | .mk lb l => .Stmt (.BlockStmt (.mk lb l)) :: preorderStmtList l
/-- Nodes of the tree under a node, in pre-order. -/
def Node.preorder : Node → List Node
  | .Expr e => e.preorder
  | .Stmt st => st.preorder
  | .CommentGroup g => [.CommentGroup g]
  | .Field fd => fd.preorder
  | .FieldList l => l.preorder
/-- Nodes under the nodes of a list, in order. -/
def preorderNodes : List Node → List Node
  | [] => []
  | x :: xs => x.preorder ++ preorderNodes xs
end

/-- State after the callback `f` has seen the node `n`. -/
def visit {σ : Type} (f : Option Node → σ → Bool × σ) (s : σ) (n : Node) : σ :=
  (f (some n) s).2

/-- Block statement that the node is, if it is one. -/
def asBlock : Node → Option BlockStmt
  | .Stmt (.BlockStmt b) => some b
  | _ => none

/-- Blocks of a function body in pre-order: the body itself, then every block statement nested
in it, at any depth. -/
def blocksPreorder (body : BlockStmt) : List BlockStmt :=
  body.preorder.filterMap asBlock

end ast

/-! ## The diagnostic sink -/

/-- Run-time panics of the Go code. -/
inductive Panic where
  | indexOutOfRange
  | sliceOutOfRange
  | nilDereference
deriving DecidableEq, Repr

/-- One variadic argument of a `ctx.Warn` call. -/
inductive Arg where
  | str (s : String)
  | node (n : ast.Node)

/-- One call `ctx.Warn(node, format, args...)`: the diagnostic is positioned at `node`. -/
structure Warning where
  node : ast.Node
  format : String
  args : List Arg

/-! ## checkers/deferAtTheEnd_checker.go -/

namespace checkers

/-- Source: `containsCallExpr`. -/
def containsCallExpr (retStmt : ast.ReturnStmt) : Bool :=
  retStmt.Results.any fun expr =>
    match expr with
    | .CallExpr _ => true
    | _ => false

/-- Source: `(*deferAtTheEnd).warn`. `Sprint` is `astfmt.Sprint` (go-toolsmith/astfmt, the
source text of a node), which the rule takes from outside. -/
def warn (Sprint : ast.Node → String) (deferStmt : ast.DeferStmt) : Warning :=
  let s := Sprint (.Stmt (.DeferStmt deferStmt))
  let s :=
    match deferStmt.Call.Fun with
    | .FuncLit fnlit => "defer " ++ Sprint (.Expr (.FuncType fnlit.Typ)) ++ "\x7b...\x7d(...)"
    | _ => s
  { node := .Stmt (.DeferStmt deferStmt), format := "%s is placed just before return",
    args := [.str s] }

/-- The `for i, stmt := range funcDecl.List` loop of `checkDeferBeforeReturn`, about to visit
index `i` with `rest` the statements from `i` on; the value is `retIndex` after the loop. -/
def scanReturn (retIndex : Nat) : Nat → List ast.Stmt → Nat
  | _, [] => retIndex
  | i, stmt :: rest =>
    match stmt with
    | .ReturnStmt retStmt =>
      if containsCallExpr retStmt then scanReturn retIndex (i + 1) rest else i
    | _ => scanReturn retIndex (i + 1) rest

/-- Source: `(*deferAtTheEnd).checkDeferBeforeReturn`. The read `funcDecl.List[retIndex-1]`
panics when the index is out of range. -/
def checkDeferBeforeReturn (Sprint : ast.Node → String) (funcDecl : ast.BlockStmt) :
    Except Panic (List Warning) :=
  let retIndex := scanReturn funcDecl.List.length 0 funcDecl.List
  if retIndex == 0 then
    .ok []
  else
    match funcDecl.List[retIndex - 1]? with
    | none => .error .indexOutOfRange
    | some (.DeferStmt deferStmt) => .ok [warn Sprint deferStmt]
    | some _ => .ok []

/-- The function literal that `VisitFuncDecl` passes to `ast.Inspect`, acting on the sink: the
warnings emitted so far, or the panic that ended the run. -/
def inspectBlock (Sprint : ast.Node → String) :
    Option ast.Node → Except Panic (List Warning) → Bool × Except Panic (List Warning)
  | some (.Stmt (.BlockStmt funDecl)), sink =>
    (true,
      match sink with
      | .error e => .error e
      | .ok ws =>
        match checkDeferBeforeReturn Sprint funDecl with
        | .error e => .error e
        | .ok more => .ok (ws ++ more))
  | _, sink => (true, sink)

/-- Source: `(*deferAtTheEnd).VisitFuncDecl`. With a nil `Body`, `ast.Inspect` hands the callback
a nil `*ast.BlockStmt`, which `checkDeferBeforeReturn` dereferences. -/
def VisitFuncDecl (Sprint : ast.Node → String) (funcDecl : ast.FuncDecl) :
    Except Panic (List Warning) :=
  match funcDecl.Body with
  | none => .error .nilDereference
  | some body => ast.Inspect (.Stmt (.BlockStmt body)) (inspectBlock Sprint) (.ok [])

/-! ### Vocabulary of the claims on the defer rule -/

/-- A return statement has no direct call expression among its results. -/
def NoDirectCall (r : ast.ReturnStmt) : Prop :=
  ∀ e ∈ r.Results, ∀ c : ast.CallExpr, e ≠ ast.Expr.CallExpr c

/-- Statement `s` is a return statement with no direct call expression among its results. -/
def QualifyingReturn (s : ast.Stmt) : Prop :=
  ∃ r : ast.ReturnStmt, s = ast.Stmt.ReturnStmt r ∧ NoDirectCall r

/-- Index `i` is the index of the first qualifying return of `S`. -/
def FirstQualifyingReturnAt (S : List ast.Stmt) (i : Nat) : Prop :=
  (∃ s, S[i]? = some s ∧ QualifyingReturn s) ∧
    ∀ j, j < i → ∀ s, S[j]? = some s → ¬ QualifyingReturn s

/-- Number `r` is the claims' `retIndex` for `S`: the index of the first qualifying return,
or the length of `S` when `S` has no qualifying return. -/
def IsRetIndex (S : List ast.Stmt) (r : Nat) : Prop :=
  FirstQualifyingReturnAt S r ∨ ((∀ s ∈ S, ¬ QualifyingReturn s) ∧ r = S.length)

/-- The rule emits a diagnostic for the block. -/
def Emits (Sprint : ast.Node → String) (block : ast.BlockStmt) : Prop :=
  ∃ w ws, checkDeferBeforeReturn Sprint block = .ok (w :: ws)

/-- Diagnostics of `checkDeferBeforeReturn` on one block. -/
def diagnostics (Sprint : ast.Node → String) (block : ast.BlockStmt) : List Warning :=
  match checkDeferBeforeReturn Sprint block with
  | .ok ws => ws
  | .error _ => []

/-- A return statement has a direct call expression among its results. -/
def HasDirectCall (r : ast.ReturnStmt) : Prop :=
  ∃ e ∈ r.Results, ∃ c : ast.CallExpr, e = ast.Expr.CallExpr c

/-- The check of the block does not flag the statement at index `i`: the statement it reads, at
`retIndex - 1`, is another one, and the result is the diagnostic on that statement if it is a
defer statement and nothing otherwise. -/
def NotFlaggedAt (Sprint : ast.Node → String) (block : ast.BlockStmt) (i : Nat) : Prop :=
  ∃ retIndex, IsRetIndex block.List retIndex ∧ retIndex ≠ i + 1 ∧
    (checkDeferBeforeReturn Sprint block = .ok [] ∨
      ∃ d, 0 < retIndex ∧ block.List[retIndex - 1]? = some (ast.Stmt.DeferStmt d) ∧
        checkDeferBeforeReturn Sprint block = .ok [warn Sprint d])

/-- Deferred call `os.Remove(filename)`, the statement of the rule's documented example. -/
def deferRemove : ast.DeferStmt :=
  .mk 1 (.mk (.SelectorExpr (.mk (.Ident ⟨7, "os"⟩) ⟨10, "Remove"⟩)) 16 [.Ident ⟨17, "filename"⟩])

/-- Body of the documented example `func() { defer os.Remove(filename) }`. -/
def exampleBefore : ast.BlockStmt :=
  .mk 0 [.DeferStmt deferRemove]

/-- Stand-in for `astfmt.Sprint` on the documented example: the source text of its only
statement. -/
def exampleSprint : ast.Node → String :=
  fun _ => "defer os.Remove(filename)"

/-- Call `name()`. -/
def callOf (name : String) : ast.CallExpr :=
  .mk (.Ident ⟨60, name⟩) 61 []

/-- Statement `defer g()`. -/
def deferG : ast.DeferStmt :=
  .mk 40 (callOf "g")

/-- Stand-in for `astfmt.Sprint` on the examples with `defer g()`. -/
def sprintDeferG : ast.Node → String :=
  fun _ => "defer g()"

/-- Block `{ defer g(); return }`. -/
def blockDeferReturn : ast.BlockStmt :=
  .mk 30 [.DeferStmt deferG, .ReturnStmt (.mk 50 [])]

/-- Block `{ h() }`. -/
def blockCallOnly : ast.BlockStmt :=
  .mk 30 [.ExprStmt (.CallExpr (callOf "h"))]

/-- Function `func f() { if c { defer g(); return }; h() }`: the pattern is in the nested block
only. -/
def declNestedOnly : ast.FuncDecl :=
  { Recv := none, Name := ⟨5, "f"⟩, Typ := .mk 0 (.mk 6 []) none,
    Body := some (.mk 10 [.IfStmt 20 none (.Ident ⟨23, "c"⟩) blockDeferReturn none,
      .ExprStmt (.CallExpr (callOf "h"))]) }

/-- Function `func f() { if c { h() }; defer g(); return }`: the pattern is in the top-level
block only. -/
def declTopOnly : ast.FuncDecl :=
  { Recv := none, Name := ⟨5, "f"⟩, Typ := .mk 0 (.mk 6 []) none,
    Body := some (.mk 10 [.IfStmt 20 none (.Ident ⟨23, "c"⟩) blockCallOnly none,
      .DeferStmt deferG, .ReturnStmt (.mk 50 [])]) }

/-- Block `{ defer g(); return x }`. -/
def blockReturnBare : ast.BlockStmt :=
  .mk 30 [.DeferStmt deferG, .ReturnStmt (.mk 50 [.Ident ⟨57, "x"⟩])]

/-- Block `{ defer g(); return wrap(x) }`: the result of `blockReturnBare` wrapped in a call. -/
def blockReturnWrapped : ast.BlockStmt :=
  .mk 30 [.DeferStmt deferG,
    .ReturnStmt (.mk 50 [.CallExpr (.mk (.Ident ⟨57, "wrap"⟩) 61 [.Ident ⟨62, "x"⟩])])]

/-- Block `{ return; defer g(); return }`: a defer in front of a return, after a first return. -/
def blockReturnFirst : ast.BlockStmt :=
  .mk 30 [.ReturnStmt (.mk 35 []), .DeferStmt deferG, .ReturnStmt (.mk 50 [])]

end checkers

/-! ## go/types -/

namespace types

/-- Object `*types.TypeName`: the declared name of a named type, a Go identifier and hence not
the empty string. -/
structure TypeName where
  Name : String
  name_ne_empty : Name ≠ ""

mutual
/-- Interface `types.Type`. Kinds the rules do not single out are `Other`. -/
inductive Typ where
  | Basic (name : String)
  | Named (Obj : TypeName)
  | Pointer (elem : Typ)
  | Signature (sig : Signature)
  | Other (kind : String) (elems : List Typ)
/-- Object `*types.Var`; `Type()` may be nil. -/
inductive Var where
  | mk (Name : String) (Typ : Option Typ)
/-- Type `*types.Signature`; `Recv()` is nil for a function that is no method. -/
inductive Signature where
  | mk (Recv : Option Var) (Params : List Var) (Results : List Var)
end

/-- Method `Type()` of a variable. -/
def Var.Typ : Var → Option Typ
  | .mk _ t => t

/-- Method `Recv()` of a signature. -/
def Signature.Recv : Signature → Option Var
  | .mk r _ _ => r

/-- Record `types.Info`, of which the rules use `TypeOf`: the type the resolver recorded for
an expression, nil when it recorded none. -/
structure Info where
  TypeOf : ast.Expr → Option Typ

end types

/-! ## Packages strings, unicode and regexp, as far as the rules use them -/

namespace strings

/-- Go `strings.HasPrefix`. -/
def HasPrefix (s p : String) : Bool :=
  p.data.isPrefixOf s.data

/-- Go `strings.ToUpper`: every character mapped by `unicode.ToUpper`, which is the parameter
`unicodeToUpper` (the Unicode case table is not part of this development). -/
def ToUpper (unicodeToUpper : Char → Char) (s : String) : String :=
  ⟨s.data.map unicodeToUpper⟩

/-- Characters of `s` up to the first `sep`, and what follows that `sep` if there is one. -/
def cut (sep : Char) : List Char → List Char × Option (List Char)
  | [] => ([], none)
  | c :: t =>
    if c = sep then ([], some t)
    else ((cut sep t).1.cons c, (cut sep t).2)

/-- Go `strings.Split(s, sep)` for a separator of one character, on the characters of `s`;
`fuel` bounds the number of separators and is the length of `s` in `Split`. -/
def splitChars (sep : Char) : Nat → List Char → List String
  | 0, s => [⟨(cut sep s).1⟩]
  | fuel + 1, s =>
    match (cut sep s).2 with
    | none => [⟨(cut sep s).1⟩]
    | some t => ⟨(cut sep s).1⟩ :: splitChars sep fuel t

/-- Go `strings.Split(s, sep)` for a separator `sep` of one character. -/
def Split (s : String) (sep : Char) : List String :=
  splitChars sep s.data.length s.data

/-- Characters of the longest prefix of `s` that is at most `n` bytes long. -/
def takeBytes : Nat → List Char → List Char
  | _, [] => []
  | n, c :: t => if c.utf8Size ≤ n then c :: takeBytes (n - c.utf8Size) t else []

/-- Go slice expression `s[:hi]`: it panics when `hi` exceeds `len(s)`. Where `hi` falls inside
a multi-byte character, Go keeps the first bytes of that character, which is no `String`; the
model stops in front of that character. -/
def sliceTo (s : String) (hi : Nat) : Except Panic String :=
  if hi ≤ s.utf8ByteSize then .ok ⟨takeBytes hi s.data⟩ else .error .sliceOutOfRange

end strings

namespace regexp

/-- Character of the text is whitespace for the regular expression class `\s`, which in Go is
`[\t\n\f\r ]`. -/
def isSpace (r : Char) : Bool :=
  r = '\t' || r = '\n' || r = '\x0c' || r = '\r' || r = ' '

/-- Under the flag `(?i)` the pattern character `c` matches the text character `r`: `r` lies
in the orbit of `c` under Unicode simple case folding. For the ASCII characters of the two
patterns the orbit is the letter in both cases, together with U+017F (long s) for `s` and
U+212A (Kelvin sign) for `k`. -/
def foldEq (c r : Char) : Bool :=
  r.toLower = c.toLower || (c.toLower = 's' && r = '\u017f') || (c.toLower = 'k' && r = '\u212a')

/-- One-character pieces of a pattern. -/
inductive Class where
  | fold (c : Char)
  | oneOf (cs : List Char)
  | notSpace
deriving DecidableEq, Repr

/-- Text character `r` belongs to the class. -/
def Class.test : Class → Char → Bool
  | .fold c, r => foldEq c r
  | .oneOf cs, r => cs.contains r
  | .notSpace, r => !isSpace r

/-- Compiled pattern `*regexp.Regexp`, for the constructs the two patterns of the rule use:
a case-folded literal character, a bracket class, `\S`, concatenation, alternation, `?` and
`*` on a one-character piece. -/
inductive Regexp where
  | empty
  | chr (k : Class)
  | cat (a b : Regexp)
  | alt (a b : Regexp)
  | quest (a : Regexp)
  | star (k : Class)
deriving DecidableEq, Repr

/-- Literal text under `(?i)`. -/
def literal (s : String) : Regexp :=
  s.data.foldr (fun c re => .cat (.chr (.fold c)) re) .empty

/-- What can remain of `s` after `k*` has matched a prefix of it. -/
def starRest (k : Class) : List Char → List (List Char)
  | [] => [[]]
  | c :: t => if k.test c then starRest k t ++ [c :: t] else [c :: t]

/-- What can remain of `s` after the pattern has matched a prefix of it: one entry for every
way to match. -/
def Regexp.rest : Regexp → List Char → List (List Char)
  | .empty, s => [s]
  | .chr _, [] => []
  | .chr k, c :: t => if k.test c then [t] else []
  | .cat a b, s => (a.rest s).flatMap b.rest
  | .alt a b, s => a.rest s ++ b.rest s
  | .quest a, s => a.rest s ++ [s]
  | .star k, s => starRest k s

/-- The pattern matches at some position of `s`. -/
def Regexp.matchFrom (re : Regexp) : List Char → Bool
  | [] => !(re.rest []).isEmpty
  | c :: t => !(re.rest (c :: t)).isEmpty || re.matchFrom t

/-- Go `(*Regexp).MatchString`: the text contains a match of the pattern. -/
def Regexp.MatchString (re : Regexp) (s : String) : Bool :=
  re.matchFrom s.data

end regexp

/-! ## lint/deprecatedComment_checker.go -/

namespace lint

open strings regexp

/-- Source: `type deprecatedCommentChecker struct`. -/
structure deprecatedCommentChecker where
  commonPatterns : List Regexp
  commonTypos : List String

/-- Pattern `(?i)this (?:function|type) is deprecated`. -/
def patternThisIsDeprecated : Regexp :=
  .cat (literal "this ") (.cat (.alt (literal "function") (literal "type"))
    (literal " is deprecated"))

/-- Pattern `(?i)deprecated[.!]? use \S* instead`. -/
def patternUseInstead : Regexp :=
  .cat (literal "deprecated") (.cat (.quest (.chr (.oneOf ['.', '!'])))
    (.cat (literal " use ") (.cat (.star .notSpace) (literal " instead"))))

/-- Source: `(*deprecatedCommentChecker).Init`. -/
def deprecatedCommentChecker.Init (c : deprecatedCommentChecker) : deprecatedCommentChecker :=
  { c with
    commonPatterns := [patternThisIsDeprecated, patternUseInstead]
    commonTypos := [
      "Dprecated: ",
      "Derecated: ",
      "Depecated: ",
      "Deprcated: ",
      "Depreated: ",
      "Deprected: ",
      "Deprecaed: ",
      "Deprecatd: ",
      "Deprecate: "] }

/-- Source: `(*deprecatedCommentChecker).warnCasing`. -/
def warnCasing (cause : ast.Node) (line : String) : Except Panic Warning :=
  match sliceTo line "DEPRECATED: ".utf8ByteSize with
  | .error e => .error e
  | .ok pre =>
    .ok { node := cause, format := "use `Deprecated: ` (note the casing) instead of `%s`",
          args := [.str pre] }

/-- Source: `(*deprecatedCommentChecker).warnPattern`. -/
def warnPattern (cause : ast.Node) : Warning :=
  { node := cause, format := "the proper format is `Deprecated: <text>`", args := [] }

/-- Source: `(*deprecatedCommentChecker).warnComma`. -/
def warnComma (cause : ast.Node) : Warning :=
  { node := cause, format := "use `:` instead of `,` in `Deprecated, `", args := [] }

/-- Source: `(*deprecatedCommentChecker).warnTypo`. Indexing the result of `strings.Split`
with 0 panics on an empty slice. -/
def warnTypo (cause : ast.Node) (line : String) : Except Panic Warning :=
  match Split line ':' with
  | [] => .error .indexOutOfRange
  | word :: _ =>
    .ok { node := cause, format := "typo in `%s`; should be `Deprecated`", args := [.str word] }

/-- The loop `for _, l := range strings.Split(doc.Text(), "\n")` of `VisitDocComment` over the
lines still to visit: `continue` is the recursive call, a `return` after a warning ends it. -/
def visitLines (unicodeToUpper : Char → Char) (c : deprecatedCommentChecker)
    (doc : ast.CommentGroup) : List String → Except Panic (List Warning)
  | [] => .ok []
  | l :: rest =>
    if l.utf8ByteSize < "Deprecated: ".utf8ByteSize then
      visitLines unicodeToUpper c doc rest
    else
      let upcase := ToUpper unicodeToUpper l
      if HasPrefix upcase "DEPRECATED: " && !HasPrefix l "Deprecated: " then
        (warnCasing (.CommentGroup doc) l).map fun w => [w]
      else if HasPrefix l "Deprecated, " then
        .ok [warnComma (.CommentGroup doc)]
      else if c.commonPatterns.any fun pat => pat.MatchString l then
        .ok [warnPattern (.CommentGroup doc)]
      else if c.commonTypos.any fun prefixWithTypo => HasPrefix l prefixWithTypo then
        (warnTypo (.CommentGroup doc) l).map fun w => [w]
      else
        visitLines unicodeToUpper c doc rest

/-- Source: `(*deprecatedCommentChecker).VisitDocComment`. -/
def VisitDocComment (unicodeToUpper : Char → Char) (c : deprecatedCommentChecker)
    (doc : ast.CommentGroup) : Except Panic (List Warning) :=
  visitLines unicodeToUpper c doc (Split doc.Text '\n')

end lint

/-! ### Vocabulary of the claims on the deprecated-comment rule -/

namespace regexp

/-- Texts the pattern matches in full (the language of the pattern). -/
def Regexp.Lang : Regexp → List Char → Prop
  | .empty, w => w = []
  | .chr k, w => ∃ r, w = [r] ∧ k.test r = true
  | .cat a b, w => ∃ u v, w = u ++ v ∧ a.Lang u ∧ b.Lang v
  | .alt a b, w => a.Lang w ∨ b.Lang w
  | .quest a, w => w = [] ∨ a.Lang w
  | .star k, w => ∀ r ∈ w, k.test r = true

end regexp

namespace lint

open strings regexp

/-- Text `w` is `lit` up to letter case: character by character, `w` lies in the case-folding
orbit of `lit`. -/
def EqFold (lit : String) (w : List Char) : Prop :=
  List.Forall₂ (fun c r => foldEq c r = true) lit.data w

/-- Line `l` contains `lit`, case-insensitively. -/
def ContainsFold (l : String) (lit : String) : Prop :=
  ∃ pre w suf, l.data = pre ++ w ++ suf ∧ EqFold lit w

/-- Line `l` contains, case-insensitively, "deprecated" followed by an optional '.' or '!',
then " use ", a possibly empty run of non-whitespace characters and " instead". -/
def ContainsUseInstead (l : String) : Prop :=
  ∃ pre d p u run i suf, l.data = pre ++ (d ++ (p ++ (u ++ (run ++ i)))) ++ suf ∧
    EqFold "deprecated" d ∧ (p = [] ∨ p = ['.'] ∨ p = ['!']) ∧ EqFold " use " u ∧
    (∀ r ∈ run, isSpace r = false) ∧ EqFold " instead" i

/-- Line `l` is one of the loose phrasings of a deprecation notice. -/
def Phrasing (l : String) : Prop :=
  ContainsFold l "this function is deprecated" ∨ ContainsFold l "this type is deprecated" ∨
    ContainsUseInstead l

/-- Casing case: the upper-cased line starts with "DEPRECATED: " and the line does not start
with "Deprecated: ". -/
def Casing (unicodeToUpper : Char → Char) (l : String) : Prop :=
  HasPrefix (ToUpper unicodeToUpper l) "DEPRECATED: " = true ∧ HasPrefix l "Deprecated: " = false

/-- Punctuation case: the line starts with "Deprecated, ". -/
def Punctuation (l : String) : Prop :=
  HasPrefix l "Deprecated, " = true

/-- Typo case: the line starts with one of the misspellings of the catalog. -/
def Typo (c : deprecatedCommentChecker) (l : String) : Prop :=
  ∃ t ∈ c.commonTypos, HasPrefix l t = true

/-- Comment group with the text `text`. -/
def commentGroup (text : String) : ast.CommentGroup :=
  { Pos := 1, Text := text }

/-- Checker as registered (`addChecker(&deprecatedCommentChecker{}, ...)`) and then
initialised by `Init`. -/
def newDeprecatedCommentChecker : deprecatedCommentChecker :=
  deprecatedCommentChecker.Init { commonPatterns := [], commonTypos := [] }

/-- Doc comment `// deprecated, use FuncNew instead`, the `Before` example of
`InitDocumentation`: its text is that line followed by a newline. -/
def documentedBefore : ast.CommentGroup :=
  { Pos := 1, Text := "deprecated, use FuncNew instead\n" }

/-- Doc comment `// Deprecated: this function is deprecated`: canonical prefix, loose phrasing
in the text. -/
def canonicalWithPhrasing : ast.CommentGroup :=
  { Pos := 1, Text := "Deprecated: this function is deprecated\n" }

/-- Doc comment of three lines: a well-formed notice, then the comma form, then the upper-case
form. -/
def mixedGroup : ast.CommentGroup :=
  { Pos := 1,
    Text := "Deprecated: use X instead\nDeprecated, use X instead\nDEPRECATED: use X instead\n" }

end lint

/-! ## lint/unexportedCall_checker.go -/

namespace ast

/-- Go `utf8.DecodeRuneInString`, the rune only: the first character, U+FFFD for the empty
string. -/
def DecodeRuneInString (s : String) : Char :=
  match s.data with
  | [] => '\ufffd'
  | ch :: _ => ch

/-- Go `(*ast.Ident).IsExported`: the name starts with an upper-case letter. `unicodeIsUpper`
is `unicode.IsUpper` (the Unicode table is not part of this development). -/
def Ident.IsExported (unicodeIsUpper : Char → Bool) (id : Ident) : Bool :=
  unicodeIsUpper (DecodeRuneInString id.Name)

end ast

namespace lint

/-- Part of the lint `context` the rule reads; `ctx.Warn` is the returned `Warning` list. -/
structure context where
  TypesInfo : types.Info

/-- Source: `type unexportedCallChecker struct`. -/
structure unexportedCallChecker where
  ctx : context
  recvName : String

/-- Source: `(*unexportedCallChecker).PerFuncInit`: the returned flag and the checker after the
call. The condition `decl.Recv != nil && len(decl.Recv.List) == 1 &&
len(decl.Recv.List[0].Names) == 1` is the match on one field with one name. -/
def unexportedCallChecker.PerFuncInit (c : unexportedCallChecker) (decl : ast.FuncDecl) :
    Bool × unexportedCallChecker :=
  match decl.Body with
  | none => (false, c)
  | some _ =>
    let c := { c with recvName := "" }
    match decl.Recv with
    | some recv =>
      match recv.List with
      | [field] =>
        match field.Names with
        | [name] => (true, { c with recvName := name.Name })
        | _ => (true, c)
      | _ => (true, c)
    | none => (true, c)

/-- Source: `(*unexportedCallChecker).warn`. -/
def unexportedCallChecker.warn (n : ast.CallExpr) : Warning :=
  { node := .Expr (.CallExpr n), format := "%s should be exported",
    args := [.node (.Expr (.CallExpr n))] }

/-- Source: `(*unexportedCallChecker).checkCall`. -/
def unexportedCallChecker.checkCall (unicodeIsUpper : Char → Bool) (c : unexportedCallChecker)
    (call : ast.CallExpr) : List Warning :=
  match call.Fun with
  | .SelectorExpr sel =>
    if sel.Sel.IsExported unicodeIsUpper then
      []
    else
      match c.ctx.TypesInfo.TypeOf (.Ident sel.Sel) with
      | some (.Signature sig) =>
        match sig.Recv with
        | none => []
        | some recv =>
          match recv.Typ with
          | none => []
          | some (.Named recvTyp) =>
            if recvTyp.Name != c.recvName then [unexportedCallChecker.warn call] else []
          | some _ => []
      | _ => []
  | _ => []

/-- Source: `(*unexportedCallChecker).CheckLocalExpr`. -/
def unexportedCallChecker.CheckLocalExpr (unicodeIsUpper : Char → Bool)
    (c : unexportedCallChecker) (expr : ast.Expr) : List Warning :=
  match expr with
  | .CallExpr call => c.checkCall unicodeIsUpper call
  | _ => []

/-! ### Vocabulary of the claims on the unexported-call rule -/

/-- The callee of `call` is a selector expression whose member is unexported and is given, by
the type resolver of `ctx`, a signature that has a receiver whose type is the named type
`T`. -/
def ResolvesToUnexportedMethod (unicodeIsUpper : Char → Bool) (ctx : context)
    (call : ast.CallExpr) (T : types.TypeName) : Prop :=
  ∃ sel sig recv, call.Fun = ast.Expr.SelectorExpr sel ∧
    sel.Sel.IsExported unicodeIsUpper = false ∧
    ctx.TypesInfo.TypeOf (.Ident sel.Sel) = some (.Signature sig) ∧
    sig.Recv = some recv ∧ recv.Typ = some (.Named T)

/-- The declaration has exactly one receiver parameter, with exactly one bound name. -/
def HasOneNamedReceiver (decl : ast.FuncDecl) : Prop :=
  ∃ recv field name, decl.Recv = some recv ∧ recv.List = [field] ∧ field.Names = [name]

/-! ### The program of the package documentation

`type foo struct{}`, `func (f foo) bar() int { return 1 }` and functions that call `bar`. -/

/-- Named type `foo`. -/
def fooType : types.Typ :=
  .Named { Name := "foo", name_ne_empty := by decide }

/-- Signature of `func (f foo) bar() int`. -/
def barSignature : types.Signature :=
  .mk (some (.mk "f" (some fooType))) [] [.mk "" (some (.Basic "int"))]

/-- Type resolver for the example: it knows the method `bar`. -/
def exampleContext : context :=
  { TypesInfo :=
      { TypeOf := fun e =>
          match e with
          | .Ident id => if id.Name = "bar" then some (.Signature barSignature) else none
          | _ => none } }

/-- Call `x.bar()`. -/
def callBar (x : String) : ast.CallExpr :=
  .mk (.SelectorExpr (.mk (.Ident ⟨30, x⟩) ⟨33, "bar"⟩)) 36 []

/-- Function type `func()`. -/
def funcNoArgs : ast.FuncType :=
  .mk 20 (.mk 0 []) none

/-- Free function `func baz() { var fo foo; fo.bar() }` of the package documentation (the
declaration of `fo` is an `Other` statement). -/
def bazFree : ast.FuncDecl :=
  { Recv := none, Name := ⟨25, "baz"⟩, Typ := funcNoArgs,
    Body := some (.mk 29 [.Other "DeclStmt" [], .ExprStmt (.CallExpr (callBar "fo"))]) }

/-- Method `func (f foo) baz() { f.bar() }` of the type `foo` itself. -/
def bazOfFoo : ast.FuncDecl :=
  { Recv := some (.mk 21 [.mk [⟨22, "f"⟩] (.Ident ⟨24, "foo"⟩)]), Name := ⟨25, "baz"⟩,
    Typ := funcNoArgs, Body := some (.mk 29 [.ExprStmt (.CallExpr (callBar "f"))]) }

/-- Method `func (foo) baz() { var fo foo; fo.bar() }`: the receiver has no name. -/
def bazUnnamedReceiver : ast.FuncDecl :=
  { Recv := some (.mk 21 [.mk [] (.Ident ⟨24, "foo"⟩)]), Name := ⟨25, "baz"⟩,
    Typ := funcNoArgs,
    Body := some (.mk 29 [.Other "DeclStmt" [], .ExprStmt (.CallExpr (callBar "fo"))]) }

/-- Checker as created by `New` for the example context. -/
def newUnexportedCallChecker : unexportedCallChecker :=
  { ctx := exampleContext, recvName := "" }

/-- Receiver binding name of a declaration: the one bound name of its one receiver parameter,
the empty string when it has no such receiver. -/
def receiverName (decl : ast.FuncDecl) : String :=
  match decl.Recv with
  | some recv =>
    match recv.List with
    | [field] =>
      match field.Names with
      | [name] => name.Name
      | _ => ""
    | _ => ""
  | none => ""

/-- Modelled from the spec: the walker of function-scoped expression rules
(`wrapLocalExprChecker`, not among the sources). For each function declaration in order it
calls the per-function reset hook `PerFuncInit` first; when the hook accepts the declaration,
it calls the handler `CheckLocalExpr` on the expressions of the function, which `localExprs`
lists in traversal order. The value is the checker after the run and the diagnostics in the
order of emission. -/
def runUnexportedCall (unicodeIsUpper : Char → Bool) (localExprs : ast.FuncDecl → List ast.Expr) :
    unexportedCallChecker → List ast.FuncDecl → unexportedCallChecker × List Warning
  | c, [] => (c, [])
  | c, decl :: rest =>
    let r := c.PerFuncInit decl
    let ws := if r.1 then (localExprs decl).flatMap (r.2.CheckLocalExpr unicodeIsUpper) else []
    let rr := runUnexportedCall unicodeIsUpper localExprs r.2 rest
    (rr.1, ws ++ rr.2)

/-- Expressions of the body of a function, in pre-order. -/
def bodyExprs (decl : ast.FuncDecl) : List ast.Expr :=
  match decl.Body with
  | none => []
  | some body =>
    body.preorder.filterMap fun n =>
      match n with
      | .Expr e => some e
      | _ => none

/-- Pointer type `*foo`. -/
def pointerToFoo : types.Typ :=
  .Pointer fooType

/-- Type resolver for the program with `func (f *foo) bar() int`: the receiver of `bar` is a
pointer. -/
def pointerContext : context :=
  { TypesInfo :=
      { TypeOf := fun e =>
          match e with
          | .Ident id =>
            if id.Name = "bar" then
              some (.Signature (.mk (some (.mk "f" (some pointerToFoo))) []
                [.mk "" (some (.Basic "int"))]))
            else none
          | _ => none } }

/-- Word `w` with its letter at index `i` deleted. -/
def deleteLetter (w : String) (i : Nat) : String :=
  ⟨w.data.eraseIdx i⟩

/-- The Unicode upper-case table maps to a character of "DEPRECATED: " only the characters that
ASCII upper-casing maps there (for the letters, the letter in either case). -/
def UpperIsAsciiOnPrefix (unicodeToUpper : Char → Char) : Prop :=
  ∀ ch : Char, unicodeToUpper ch ∈ "DEPRECATED: ".data → ch.toUpper = unicodeToUpper ch

/-- Format of the typo diagnostic. -/
def typoFormat : String :=
  "typo in `%s`; should be `Deprecated`"

/-- Format of the casing diagnostic. -/
def casingFormat : String :=
  "use `Deprecated: ` (note the casing) instead of `%s`"

end lint

/-! ## Theorems -/

namespace checkers

theorem containsCallExpr_eq_false_iff (r : ast.ReturnStmt) :
    containsCallExpr r = false ↔ NoDirectCall r := by
  unfold containsCallExpr NoDirectCall
  rw [List.any_eq_false]
  constructor
  · intro h e he c hc
    have := h e he
    subst hc
    simp at this
  · intro h e he
    cases e <;> simp
    exact h _ he _ rfl

theorem not_qualifying_of_contains (r : ast.ReturnStmt) (h : containsCallExpr r = true) :
    ¬ QualifyingReturn (ast.Stmt.ReturnStmt r) := by
  rintro ⟨r1, hEq, hNo⟩
  cases hEq
  have := (containsCallExpr_eq_false_iff r).mpr hNo
  rw [h] at this
  cases this

theorem firstQualifying_zero (s : ast.Stmt) (rest : List ast.Stmt) (h : QualifyingReturn s) :
    FirstQualifyingReturnAt (s :: rest) 0 :=
  ⟨⟨s, by simp, h⟩, fun j hj => absurd hj (Nat.not_lt_zero j)⟩

theorem firstQualifying_succ (s : ast.Stmt) (rest : List ast.Stmt) (k : Nat)
    (h : ¬ QualifyingReturn s) (hk : FirstQualifyingReturnAt rest k) :
    FirstQualifyingReturnAt (s :: rest) (k + 1) := by
  obtain ⟨⟨t, ht, hq⟩, hmin⟩ := hk
  refine ⟨⟨t, by simpa using ht, hq⟩, ?_⟩
  intro j hj u hu
  cases j with
  | zero =>
    simp at hu
    subst hu
    exact h
  | succ j =>
    simp at hu
    exact hmin j (by omega) u hu

/-- The scan either leaves the sentinel in place, and then no statement qualifies, or stops at
the first qualifying return. -/
theorem scanReturn_spec (n : Nat) (S : List ast.Stmt) :
    ∀ i, (scanReturn n i S = n ∧ ∀ s ∈ S, ¬ QualifyingReturn s) ∨
      (∃ k, scanReturn n i S = i + k ∧ FirstQualifyingReturnAt S k) := by
  induction S with
  | nil => intro i; left; simp [scanReturn]
  | cons stmt rest ih =>
    intro i
    have skip : ¬ QualifyingReturn stmt →
        scanReturn n i (stmt :: rest) = scanReturn n (i + 1) rest →
        (scanReturn n i (stmt :: rest) = n ∧ ∀ s ∈ stmt :: rest, ¬ QualifyingReturn s) ∨
        (∃ k, scanReturn n i (stmt :: rest) = i + k ∧
          FirstQualifyingReturnAt (stmt :: rest) k) := by
      intro hq hstep
      rcases ih (i + 1) with ⟨h1, h2⟩ | ⟨k, h1, h2⟩
      · left
        refine ⟨by rw [hstep, h1], ?_⟩
        intro s hs
        rcases List.mem_cons.mp hs with rfl | hs
        · exact hq
        · exact h2 s hs
      · right
        exact ⟨k + 1, by rw [hstep, h1]; omega, firstQualifying_succ stmt rest k hq h2⟩
    cases stmt with
    | ReturnStmt r =>
      by_cases hc : containsCallExpr r = true
      · exact skip (not_qualifying_of_contains r hc) (by simp [scanReturn, hc])
      · right
        refine ⟨0, by simp [scanReturn, hc], firstQualifying_zero _ _ ⟨r, rfl, ?_⟩⟩
        exact (containsCallExpr_eq_false_iff r).mp (by simpa using hc)
    | _ => exact skip (by rintro ⟨r, hr, -⟩; cases hr) (by simp [scanReturn])

theorem isRetIndex_scanReturn (S : List ast.Stmt) : IsRetIndex S (scanReturn S.length 0 S) := by
  rcases scanReturn_spec S.length S 0 with ⟨h1, h2⟩ | ⟨k, h1, h2⟩
  · exact Or.inr ⟨h2, h1⟩
  · left
    rw [h1, Nat.zero_add]
    exact h2

theorem firstQualifying_lt_length (S : List ast.Stmt) (i : Nat)
    (h : FirstQualifyingReturnAt S i) : i < S.length := by
  obtain ⟨⟨s, hs, -⟩, -⟩ := h
  exact (List.getElem?_eq_some_iff.mp hs).1

theorem firstQualifying_unique (S : List ast.Stmt) (i j : Nat)
    (hi : FirstQualifyingReturnAt S i) (hj : FirstQualifyingReturnAt S j) : i = j := by
  obtain ⟨⟨s, hs, hsq⟩, hmin⟩ := hi
  obtain ⟨⟨t, ht, htq⟩, hmin2⟩ := hj
  rcases Nat.lt_trichotomy i j with h | h | h
  · exact absurd hsq (hmin2 i h s hs)
  · exact h
  · exact absurd htq (hmin j h t ht)

theorem isRetIndex_unique (S : List ast.Stmt) (r1 r2 : Nat)
    (h1 : IsRetIndex S r1) (h2 : IsRetIndex S r2) : r1 = r2 := by
  have none_first : ∀ r, (∀ s ∈ S, ¬ QualifyingReturn s) → ¬ FirstQualifyingReturnAt S r := by
    rintro r hnone ⟨⟨s, hs, hq⟩, -⟩
    exact hnone s (List.getElem?_mem hs) hq
  rcases h1 with h1 | ⟨h1, e1⟩ <;> rcases h2 with h2 | ⟨h2, e2⟩
  · exact firstQualifying_unique S _ _ h1 h2
  · exact absurd h1 (none_first _ h2)
  · exact absurd h2 (none_first _ h1)
  · rw [e1, e2]

theorem isRetIndex_le_length (S : List ast.Stmt) (r : Nat) (h : IsRetIndex S r) :
    r ≤ S.length := by
  rcases h with h | ⟨-, e⟩
  · exact Nat.le_of_lt (firstQualifying_lt_length S r h)
  · exact Nat.le_of_eq e

/-- What `checkDeferBeforeReturn` returns, by cases on the statement in front of `retIndex`. -/
theorem checkDeferBeforeReturn_cases (Sprint : ast.Node → String) (block : ast.BlockStmt)
    (r : Nat) (hr : IsRetIndex block.List r) :
    (r = 0 ∧ checkDeferBeforeReturn Sprint block = .ok []) ∨
    (0 < r ∧ ∃ s, block.List[r - 1]? = some s ∧
      ((∃ d, s = ast.Stmt.DeferStmt d ∧ checkDeferBeforeReturn Sprint block = .ok [warn Sprint d]) ∨
       ((∀ d, s ≠ ast.Stmt.DeferStmt d) ∧ checkDeferBeforeReturn Sprint block = .ok []))) := by
  have hscan : scanReturn block.List.length 0 block.List = r :=
    isRetIndex_unique _ _ _ (isRetIndex_scanReturn _) hr
  have hle := isRetIndex_le_length _ _ hr
  rcases Nat.eq_zero_or_pos r with h0 | hpos
  · left
    exact ⟨h0, by simp [checkDeferBeforeReturn, hscan, h0]⟩
  · right
    refine ⟨hpos, ?_⟩
    have hlt : r - 1 < block.List.length := by omega
    refine ⟨block.List[r - 1], List.getElem?_eq_getElem hlt, ?_⟩
    have hne : (r == 0) = false := by simp; omega
    cases hs : block.List[r - 1] with
    | DeferStmt d =>
      left
      refine ⟨d, rfl, ?_⟩
      simp [checkDeferBeforeReturn, hscan, hne, List.getElem?_eq_getElem hlt, hs]
    | _ =>
      right
      refine ⟨(by intro d hd; cases hd), ?_⟩
      simp [checkDeferBeforeReturn, hscan, hne, List.getElem?_eq_getElem hlt, hs]

theorem not_emits_of_ok_nil (Sprint : ast.Node → String) (block : ast.BlockStmt)
    (h : checkDeferBeforeReturn Sprint block = .ok []) : ¬ Emits Sprint block := by
  rintro ⟨w, ws, hw⟩
  rw [h] at hw
  cases hw

/-- C1 (as amended): the rule emits a diagnostic for a block if and only if either the block
has a return statement with no direct call among its results and the statement immediately
before the first such return is a defer statement, or the block has no such return and its
last statement is a defer statement. -/
theorem checkDeferBeforeReturn_emits_iff (Sprint : ast.Node → String) (block : ast.BlockStmt) :
    Emits Sprint block ↔
      (∃ i, FirstQualifyingReturnAt block.List i ∧ 0 < i ∧
        ∃ d, block.List[i - 1]? = some (ast.Stmt.DeferStmt d)) ∨
      ((∀ s ∈ block.List, ¬ QualifyingReturn s) ∧
        ∃ d, block.List.getLast? = some (ast.Stmt.DeferStmt d)) := by
  have hr := isRetIndex_scanReturn block.List
  generalize scanReturn block.List.length 0 block.List = r at hr
  have huniq := fun r2 h2 => isRetIndex_unique block.List r2 r h2 hr
  have hfirst : ∀ i, FirstQualifyingReturnAt block.List i → i = r :=
    fun i hi => huniq i (Or.inl hi)
  have hnone : (∀ s ∈ block.List, ¬ QualifyingReturn s) → block.List.length = r :=
    fun h => huniq _ (Or.inr ⟨h, rfl⟩)
  rcases checkDeferBeforeReturn_cases Sprint block r hr with
    ⟨h0, hres⟩ | ⟨hpos, s, hs, ⟨d, hd, hres⟩ | ⟨hnd, hres⟩⟩
  · constructor
    · intro he
      exact absurd he (not_emits_of_ok_nil Sprint block hres)
    · rintro (⟨i, hi, hipos, -⟩ | ⟨hn, d, hd⟩)
      · have := hfirst i hi
        omega
      · have hlen := hnone hn
        have : block.List = [] := List.length_eq_zero.mp (by omega)
        rw [this] at hd
        cases hd
  · constructor
    · intro _
      rcases hr with hr | ⟨hn, hlen⟩
      · exact Or.inl ⟨r, hr, hpos, d, by rw [hs, hd]⟩
      · exact Or.inr ⟨hn, d, by rw [List.getLast?_eq_getElem?, ← hlen, hs, hd]⟩
    · intro _
      exact ⟨_, _, hres⟩
  · constructor
    · intro he
      exact absurd he (not_emits_of_ok_nil Sprint block hres)
    · rintro (⟨i, hi, -, d, hd⟩ | ⟨hn, d, hd⟩)
      · rw [hfirst i hi, hs] at hd
        exact absurd (Option.some.inj hd) (hnd d)
      · rw [List.getLast?_eq_getElem?, hnone hn, hs] at hd
        exact absurd (Option.some.inj hd) (hnd d)

/-- C1 (as stated) fails on the body of `func() { defer os.Remove(filename) }`: the rule emits
a diagnostic although the block has no return statement at all. -/
theorem checkDeferBeforeReturn_emits_iff_counterexample :
    ¬ (Emits exampleSprint exampleBefore ↔
        ∃ i, FirstQualifyingReturnAt exampleBefore.List i ∧ 0 < i ∧
          ∃ d, exampleBefore.List[i - 1]? = some (ast.Stmt.DeferStmt d)) := by
  intro h
  have he : Emits exampleSprint exampleBefore := ⟨warn exampleSprint deferRemove, [], rfl⟩
  obtain ⟨i, ⟨⟨s, hs, r, hr, -⟩, -⟩, -, -⟩ := h.mp he
  subst hr
  cases i with
  | zero => simp [exampleBefore, ast.BlockStmt.List] at hs
  | succ i => simp [exampleBefore, ast.BlockStmt.List] at hs

/-- C5: with `retIndex` the index of the first return statement of the block that has no
direct call among its results, or the length of the block when there is none,
`checkDeferBeforeReturn` returns exactly one diagnostic, positioned at the statement at
`retIndex - 1`, when `retIndex > 0` and that statement is a defer statement, and returns no
diagnostic otherwise; in particular a block without qualifying return whose last statement is
a defer statement is flagged. -/
theorem checkDeferBeforeReturn_retIndex (Sprint : ast.Node → String) (block : ast.BlockStmt) :
    ∃ retIndex, IsRetIndex block.List retIndex ∧
      (∀ r, IsRetIndex block.List r → r = retIndex) ∧
      ((∃ d, 0 < retIndex ∧ block.List[retIndex - 1]? = some (ast.Stmt.DeferStmt d) ∧
          checkDeferBeforeReturn Sprint block = .ok [warn Sprint d] ∧
          (warn Sprint d).node = ast.Node.Stmt (ast.Stmt.DeferStmt d)) ∨
       (¬ (0 < retIndex ∧ ∃ d, block.List[retIndex - 1]? = some (ast.Stmt.DeferStmt d)) ∧
          checkDeferBeforeReturn Sprint block = .ok [])) ∧
      ((∀ s ∈ block.List, ¬ QualifyingReturn s) →
        ∀ d, block.List.getLast? = some (ast.Stmt.DeferStmt d) →
          checkDeferBeforeReturn Sprint block = .ok [warn Sprint d]) := by
  have hr := isRetIndex_scanReturn block.List
  generalize scanReturn block.List.length 0 block.List = r at hr
  have huniq := fun r2 h2 => isRetIndex_unique block.List r2 r h2 hr
  refine ⟨r, hr, huniq, ?_, ?_⟩
  · rcases checkDeferBeforeReturn_cases Sprint block r hr with
      ⟨h0, hres⟩ | ⟨hpos, s, hs, ⟨d, hd, hres⟩ | ⟨hnd, hres⟩⟩
    · exact Or.inr ⟨by omega, hres⟩
    · exact Or.inl ⟨d, hpos, by rw [hs, hd], hres, rfl⟩
    · refine Or.inr ⟨?_, hres⟩
      rintro ⟨-, d, hd⟩
      rw [hs] at hd
      exact hnd d (Option.some.inj hd)
  · intro hn d hd
    have hlen : block.List.length = r := huniq _ (Or.inr ⟨hn, rfl⟩)
    rw [List.getLast?_eq_getElem?, hlen] at hd
    rcases checkDeferBeforeReturn_cases Sprint block r hr with
      ⟨h0, -⟩ | ⟨-, s, hs, ⟨d2, hd2, hres⟩ | ⟨hnd, -⟩⟩
    · subst h0
      have : block.List = [] := List.length_eq_zero.mp hlen
      rw [this] at hd
      cases hd
    · rw [hs, hd2] at hd
      cases hd
      exact hres
    · rw [hs] at hd
      exact absurd (Option.some.inj hd) (hnd d)

/-- C5 at the documented example `func() { defer os.Remove(filename) }`: no return, last
statement a defer, one diagnostic at that defer. -/
theorem checkDeferBeforeReturn_retIndex_witness :
    exampleBefore.List.getLast? = some (ast.Stmt.DeferStmt deferRemove) ∧
    checkDeferBeforeReturn exampleSprint exampleBefore = .ok [warn exampleSprint deferRemove] :=
  have hn : ∀ s ∈ exampleBefore.List, ¬ QualifyingReturn s := by
    intro s hs
    simp [exampleBefore, ast.BlockStmt.List] at hs
    subst hs
    rintro ⟨r, hr, -⟩
    cases hr
  have hl : exampleBefore.List.getLast? = some (ast.Stmt.DeferStmt deferRemove) := rfl
  ⟨hl, (checkDeferBeforeReturn_retIndex exampleSprint exampleBefore).choose_spec.2.2.2 hn _ hl⟩

end checkers

namespace regexp

theorem starRest_iff (k : Class) (s t : List Char) :
    t ∈ starRest k s ↔ ∃ w, s = w ++ t ∧ ∀ r ∈ w, k.test r = true := by
  induction s with
  | nil =>
    simp only [starRest, List.mem_singleton]
    constructor
    · rintro rfl
      exact ⟨[], rfl, by simp⟩
    · rintro ⟨w, hw, -⟩
      have := List.append_eq_nil.mp hw.symm
      exact this.2
  | cons c s ih =>
    have self_mem : ∃ w, c :: s = w ++ (c :: s) ∧ ∀ r ∈ w, k.test r = true :=
      ⟨[], rfl, by simp⟩
    by_cases hk : k.test c = true
    · simp only [starRest, hk, if_true, List.mem_append, List.mem_singleton, ih]
      constructor
      · rintro (⟨w, hw, hall⟩ | rfl)
        · refine ⟨c :: w, by rw [hw]; rfl, ?_⟩
          intro r hr
          rcases List.mem_cons.mp hr with rfl | hr
          · exact hk
          · exact hall r hr
        · exact self_mem
      · rintro ⟨w, hw, hall⟩
        cases w with
        | nil => right; exact hw.symm
        | cons a w =>
          left
          simp only [List.cons_append, List.cons.injEq] at hw
          exact ⟨w, hw.2, fun r hr => hall r (List.mem_cons_of_mem _ hr)⟩
    · simp only [starRest, hk, Bool.false_eq_true, if_false, List.mem_singleton]
      constructor
      · rintro rfl
        exact self_mem
      · rintro ⟨w, hw, hall⟩
        cases w with
        | nil => exact hw.symm
        | cons a w =>
          simp only [List.cons_append, List.cons.injEq] at hw
          exact absurd (hw.1 ▸ hall a (List.mem_cons_self _ _)) hk

/-- The remainders computed by `rest` are exactly the suffixes left by a match of a prefix. -/
theorem rest_iff (re : Regexp) : ∀ s t : List Char,
    t ∈ re.rest s ↔ ∃ w, s = w ++ t ∧ re.Lang w := by
  induction re with
  | empty =>
    intro s t
    simp only [Regexp.rest, Regexp.Lang, List.mem_singleton]
    constructor
    · rintro rfl
      exact ⟨[], rfl, rfl⟩
    · rintro ⟨w, hw, rfl⟩
      exact hw.symm
  | chr k =>
    intro s t
    cases s with
    | nil =>
      simp only [Regexp.rest, Regexp.Lang, List.not_mem_nil, false_iff]
      rintro ⟨w, hw, r, rfl, -⟩
      cases hw
    | cons c s =>
      by_cases hk : k.test c = true
      · simp only [Regexp.rest, hk, if_true, List.mem_singleton, Regexp.Lang]
        constructor
        · rintro rfl
          exact ⟨[c], rfl, c, rfl, hk⟩
        · rintro ⟨w, hw, r, rfl, -⟩
          simp only [List.singleton_append, List.cons.injEq] at hw
          exact hw.2.symm
      · simp only [Regexp.rest, hk, Bool.false_eq_true, if_false, Regexp.Lang,
          List.not_mem_nil, false_iff]
        rintro ⟨w, hw, r, rfl, hr⟩
        simp only [List.singleton_append, List.cons.injEq] at hw
        exact hk (hw.1 ▸ hr)
  | cat a b iha ihb =>
    intro s t
    simp only [Regexp.rest, Regexp.Lang, List.mem_flatMap]
    constructor
    · rintro ⟨m, hm, ht⟩
      obtain ⟨u, hu, hau⟩ := (iha s m).mp hm
      obtain ⟨v, hv, hbv⟩ := (ihb m t).mp ht
      exact ⟨u ++ v, by rw [hu, hv, List.append_assoc], u, v, rfl, hau, hbv⟩
    · rintro ⟨w, hw, u, v, rfl, hau, hbv⟩
      refine ⟨v ++ t, (iha s _).mpr ⟨u, by rw [hw, List.append_assoc], hau⟩, ?_⟩
      exact (ihb _ t).mpr ⟨v, rfl, hbv⟩
  | alt a b iha ihb =>
    intro s t
    simp only [Regexp.rest, Regexp.Lang, List.mem_append, iha, ihb]
    constructor
    · rintro (⟨w, hw, h⟩ | ⟨w, hw, h⟩)
      · exact ⟨w, hw, Or.inl h⟩
      · exact ⟨w, hw, Or.inr h⟩
    · rintro ⟨w, hw, h | h⟩
      · exact Or.inl ⟨w, hw, h⟩
      · exact Or.inr ⟨w, hw, h⟩
  | quest a iha =>
    intro s t
    simp only [Regexp.rest, Regexp.Lang, List.mem_append, List.mem_singleton, iha]
    constructor
    · rintro (⟨w, hw, h⟩ | rfl)
      · exact ⟨w, hw, Or.inr h⟩
      · exact ⟨[], rfl, Or.inl rfl⟩
    · rintro ⟨w, hw, rfl | h⟩
      · exact Or.inr hw.symm
      · exact Or.inl ⟨w, hw, h⟩
  | star k =>
    intro s t
    simp only [Regexp.rest, Regexp.Lang]
    exact starRest_iff k s t

theorem rest_nonempty_iff (re : Regexp) (s : List Char) :
    (!(re.rest s).isEmpty) = true ↔ ∃ w suf, s = w ++ suf ∧ re.Lang w := by
  constructor
  · intro h
    cases hr : re.rest s with
    | nil => simp [hr] at h
    | cons t ts =>
      obtain ⟨w, hw, hl⟩ := (rest_iff re s t).mp (by rw [hr]; exact List.mem_cons_self _ _)
      exact ⟨w, t, hw, hl⟩
  · rintro ⟨w, suf, hw, hl⟩
    have hm := (rest_iff re s suf).mpr ⟨w, hw, hl⟩
    cases hr : re.rest s with
    | nil => rw [hr] at hm; cases hm
    | cons t ts => rfl

/-- The search `matchFrom` succeeds exactly on the texts that contain a match. -/
theorem matchFrom_iff (re : Regexp) (s : List Char) :
    re.matchFrom s = true ↔ ∃ pre w suf, s = pre ++ w ++ suf ∧ re.Lang w := by
  induction s with
  | nil =>
    simp only [Regexp.matchFrom]
    rw [rest_nonempty_iff]
    constructor
    · rintro ⟨w, suf, hw, hl⟩
      exact ⟨[], w, suf, hw, hl⟩
    · rintro ⟨pre, w, suf, hw, hl⟩
      have h1 := List.append_eq_nil.mp hw.symm
      have h2 := List.append_eq_nil.mp h1.1
      exact ⟨w, [], by rw [h2.2]; rfl, hl⟩
  | cons c s ih =>
    simp only [Regexp.matchFrom, Bool.or_eq_true]
    rw [rest_nonempty_iff, ih]
    constructor
    · rintro (⟨w, suf, hw, hl⟩ | ⟨pre, w, suf, hw, hl⟩)
      · exact ⟨[], w, suf, hw, hl⟩
      · exact ⟨c :: pre, w, suf, by rw [hw]; rfl, hl⟩
    · rintro ⟨pre, w, suf, hw, hl⟩
      cases pre with
      | nil => exact Or.inl ⟨w, suf, hw, hl⟩
      | cons a pre =>
        simp only [List.cons_append, List.cons.injEq] at hw
        exact Or.inr ⟨pre, w, suf, hw.2, hl⟩

theorem matchString_iff (re : Regexp) (s : String) :
    re.MatchString s = true ↔ ∃ pre w suf, s.data = pre ++ w ++ suf ∧ re.Lang w :=
  matchFrom_iff re s.data

end regexp

namespace lint

open strings regexp

theorem forall₂_append_left_iff {α β : Type} (R : α → β → Prop) (a b : List α) (w : List β) :
    List.Forall₂ R (a ++ b) w ↔
      ∃ u v, w = u ++ v ∧ List.Forall₂ R a u ∧ List.Forall₂ R b v := by
  induction a generalizing w with
  | nil =>
    constructor
    · intro h
      exact ⟨[], w, rfl, List.Forall₂.nil, h⟩
    · rintro ⟨u, v, rfl, hu, hv⟩
      cases hu
      exact hv
  | cons x a ih =>
    constructor
    · intro h
      cases h with
      | cons hx hrest =>
        obtain ⟨u, v, rfl, hu, hv⟩ := (ih _).mp hrest
        exact ⟨_ :: u, v, rfl, List.Forall₂.cons hx hu, hv⟩
    · rintro ⟨u, v, rfl, hu, hv⟩
      cases hu with
      | cons hx hu => exact List.Forall₂.cons hx ((ih _).mpr ⟨_, v, rfl, hu, hv⟩)

theorem eqFold_append (a b : String) (w : List Char) :
    EqFold (a ++ b) w ↔ ∃ u v, w = u ++ v ∧ EqFold a u ∧ EqFold b v := by
  unfold EqFold
  rw [String.data_append]
  exact forall₂_append_left_iff _ _ _ _

/-- The language of a case-folded literal is the literal up to letter case. -/
theorem literal_lang (lit : String) (w : List Char) : (literal lit).Lang w ↔ EqFold lit w := by
  unfold literal EqFold
  generalize lit.data = cs
  induction cs generalizing w with
  | nil =>
    simp only [List.foldr, Regexp.Lang, List.forall₂_nil_left_iff]
  | cons c cs ih =>
    simp only [List.foldr, Regexp.Lang, Class.test, List.forall₂_cons_left_iff, ih]
    constructor
    · rintro ⟨u, v, rfl, ⟨r, rfl, hr⟩, hv⟩
      exact ⟨r, v, hr, hv, rfl⟩
    · rintro ⟨r, v, hr, hv, rfl⟩
      exact ⟨[r], v, rfl, ⟨r, rfl, hr⟩, hv⟩

theorem patternThisIsDeprecated_lang (w : List Char) :
    patternThisIsDeprecated.Lang w ↔
      EqFold "this function is deprecated" w ∨ EqFold "this type is deprecated" w := by
  have e1 : "this function is deprecated" = "this " ++ ("function" ++ " is deprecated") := by
    decide
  have e2 : "this type is deprecated" = "this " ++ ("type" ++ " is deprecated") := by
    decide
  rw [e1, e2]
  simp only [patternThisIsDeprecated, Regexp.Lang.eq_3, Regexp.Lang.eq_4, literal_lang,
    eqFold_append]
  constructor
  · rintro ⟨u, v, rfl, hu, u2, v2, rfl, h | h, hv2⟩
    · exact Or.inl ⟨u, _, rfl, hu, u2, v2, rfl, h, hv2⟩
    · exact Or.inr ⟨u, _, rfl, hu, u2, v2, rfl, h, hv2⟩
  · rintro (⟨u, v, rfl, hu, u2, v2, rfl, h, hv2⟩ | ⟨u, v, rfl, hu, u2, v2, rfl, h, hv2⟩)
    · exact ⟨u, _, rfl, hu, u2, v2, rfl, Or.inl h, hv2⟩
    · exact ⟨u, _, rfl, hu, u2, v2, rfl, Or.inr h, hv2⟩

theorem questPunct_lang (p : List Char) :
    (Regexp.quest (.chr (.oneOf ['.', '!']))).Lang p ↔ p = [] ∨ p = ['.'] ∨ p = ['!'] := by
  simp only [Regexp.Lang, Class.test]
  constructor
  · rintro (h | ⟨r, rfl, hr⟩)
    · exact Or.inl h
    · right
      simp at hr
      rcases hr with rfl | rfl
      · exact Or.inl rfl
      · exact Or.inr rfl
  · rintro (h | rfl | rfl)
    · exact Or.inl h
    · exact Or.inr ⟨'.', rfl, by decide⟩
    · exact Or.inr ⟨'!', rfl, by decide⟩

theorem patternUseInstead_lang (w : List Char) :
    patternUseInstead.Lang w ↔
      ∃ d p u run i, w = d ++ (p ++ (u ++ (run ++ i))) ∧ EqFold "deprecated" d ∧
        (p = [] ∨ p = ['.'] ∨ p = ['!']) ∧ EqFold " use " u ∧
        (∀ r ∈ run, isSpace r = false) ∧ EqFold " instead" i := by
  unfold patternUseInstead
  simp only [Regexp.Lang.eq_3, literal_lang, questPunct_lang]
  simp only [Regexp.Lang, Class.test, Bool.not_eq_true_eq_eq_false, Bool.not_eq_eq_eq_not,
    Bool.not_true]
  constructor
  · rintro ⟨d, v1, rfl, hd, p, v2, rfl, hp, u, v3, rfl, hu, run, i, rfl, hrun, hi⟩
    exact ⟨d, p, u, run, i, rfl, hd, hp, hu, hrun, hi⟩
  · rintro ⟨d, p, u, run, i, rfl, hd, hp, hu, hrun, hi⟩
    exact ⟨d, _, rfl, hd, p, _, rfl, hp, u, _, rfl, hu, run, i, rfl, hrun, hi⟩

/-- Some pattern of the initialised checker matches a line exactly when the line is one of the
loose phrasings. -/
theorem commonPatterns_any_iff (c : deprecatedCommentChecker) (l : String) :
    (c.Init.commonPatterns.any fun pat => pat.MatchString l) = true ↔ Phrasing l := by
  simp only [deprecatedCommentChecker.Init, List.any_cons, List.any_nil, Bool.or_false,
    Bool.or_eq_true, matchString_iff, patternThisIsDeprecated_lang, patternUseInstead_lang]
  unfold Phrasing ContainsFold ContainsUseInstead
  constructor
  · rintro (⟨pre, w, suf, hl, h | h⟩ | ⟨pre, w, suf, hl, d, p, u, run, i, rfl, h⟩)
    · exact Or.inl ⟨pre, w, suf, hl, h⟩
    · exact Or.inr (Or.inl ⟨pre, w, suf, hl, h⟩)
    · exact Or.inr (Or.inr ⟨pre, d, p, u, run, i, suf, hl, h⟩)
  · rintro (⟨pre, w, suf, hl, h⟩ | ⟨pre, w, suf, hl, h⟩ | ⟨pre, d, p, u, run, i, suf, hl, h⟩)
    · exact Or.inl ⟨pre, w, suf, hl, Or.inl h⟩
    · exact Or.inl ⟨pre, w, suf, hl, Or.inr h⟩
    · exact Or.inr ⟨pre, _, suf, hl, d, p, u, run, i, rfl, h⟩

theorem visitLines_short (U : Char → Char) (c : deprecatedCommentChecker)
    (doc : ast.CommentGroup) (l : String) (rest : List String) (h : l.utf8ByteSize < 12) :
    visitLines U c doc (l :: rest) = visitLines U c doc rest := by
  have h12 : "Deprecated: ".utf8ByteSize = 12 := by decide
  rw [visitLines, h12, if_pos h]

theorem visitLines_casing (U : Char → Char) (c : deprecatedCommentChecker)
    (doc : ast.CommentGroup) (l : String) (rest : List String) (h : 12 ≤ l.utf8ByteSize)
    (hc : Casing U l) :
    visitLines U c doc (l :: rest) = (warnCasing (.CommentGroup doc) l).map fun w => [w] := by
  have h12 : "Deprecated: ".utf8ByteSize = 12 := by decide
  rw [visitLines, h12, if_neg (by omega)]
  simp only [hc.1, hc.2, Bool.not_false, Bool.and_self, if_true]

theorem visitLines_punctuation (U : Char → Char) (c : deprecatedCommentChecker)
    (doc : ast.CommentGroup) (l : String) (rest : List String) (h : 12 ≤ l.utf8ByteSize)
    (hc : ¬ Casing U l) (hp : Punctuation l) :
    visitLines U c doc (l :: rest) = .ok [warnComma (.CommentGroup doc)] := by
  have h12 : "Deprecated: ".utf8ByteSize = 12 := by decide
  have hc2 : (HasPrefix (ToUpper U l) "DEPRECATED: " && !HasPrefix l "Deprecated: ") = false := by
    unfold Casing at hc
    cases h1 : HasPrefix (ToUpper U l) "DEPRECATED: " <;>
      cases h2 : HasPrefix l "Deprecated: " <;> simp_all
  unfold Punctuation at hp
  rw [visitLines, h12, if_neg (by omega)]
  simp only [hc2, hp, Bool.false_eq_true, if_false, if_true]

theorem visitLines_phrasing (U : Char → Char) (c : deprecatedCommentChecker)
    (doc : ast.CommentGroup) (l : String) (rest : List String) (h : 12 ≤ l.utf8ByteSize)
    (hc : ¬ Casing U l) (hp : ¬ Punctuation l) (hph : Phrasing l) :
    visitLines U c.Init doc (l :: rest) = .ok [warnPattern (.CommentGroup doc)] := by
  have h12 : "Deprecated: ".utf8ByteSize = 12 := by decide
  have hc2 : (HasPrefix (ToUpper U l) "DEPRECATED: " && !HasPrefix l "Deprecated: ") = false := by
    unfold Casing at hc
    cases h1 : HasPrefix (ToUpper U l) "DEPRECATED: " <;>
      cases h2 : HasPrefix l "Deprecated: " <;> simp_all
  have hp2 : HasPrefix l "Deprecated, " = false := by
    unfold Punctuation at hp
    simpa using hp
  have hph2 := (commonPatterns_any_iff c l).mpr hph
  rw [visitLines, h12, if_neg (by omega)]
  simp only [hc2, hp2, hph2, Bool.false_eq_true, if_false, if_true]

theorem typos_any_iff (c : deprecatedCommentChecker) (l : String) :
    (c.commonTypos.any fun prefixWithTypo => HasPrefix l prefixWithTypo) = true ↔ Typo c l := by
  unfold Typo
  rw [List.any_eq_true]

theorem visitLines_typo (U : Char → Char) (c : deprecatedCommentChecker)
    (doc : ast.CommentGroup) (l : String) (rest : List String) (h : 12 ≤ l.utf8ByteSize)
    (hc : ¬ Casing U l) (hp : ¬ Punctuation l) (hph : ¬ Phrasing l) (ht : Typo c.Init l) :
    visitLines U c.Init doc (l :: rest) = (warnTypo (.CommentGroup doc) l).map fun w => [w] := by
  have h12 : "Deprecated: ".utf8ByteSize = 12 := by decide
  have hc2 : (HasPrefix (ToUpper U l) "DEPRECATED: " && !HasPrefix l "Deprecated: ") = false := by
    unfold Casing at hc
    cases h1 : HasPrefix (ToUpper U l) "DEPRECATED: " <;>
      cases h2 : HasPrefix l "Deprecated: " <;> simp_all
  have hp2 : HasPrefix l "Deprecated, " = false := by
    unfold Punctuation at hp
    simpa using hp
  have hph2 : (c.Init.commonPatterns.any fun pat => pat.MatchString l) = false := by
    have := mt (commonPatterns_any_iff c l).mp hph
    simpa using this
  have ht2 := (typos_any_iff c.Init l).mpr ht
  rw [visitLines, h12, if_neg (by omega)]
  simp only [hc2, hp2, hph2, ht2, Bool.false_eq_true, if_false, if_true]

theorem visitLines_clean (U : Char → Char) (c : deprecatedCommentChecker)
    (doc : ast.CommentGroup) (l : String) (rest : List String) (h : 12 ≤ l.utf8ByteSize)
    (hc : ¬ Casing U l) (hp : ¬ Punctuation l) (hph : ¬ Phrasing l) (ht : ¬ Typo c.Init l) :
    visitLines U c.Init doc (l :: rest) = visitLines U c.Init doc rest := by
  have h12 : "Deprecated: ".utf8ByteSize = 12 := by decide
  have hc2 : (HasPrefix (ToUpper U l) "DEPRECATED: " && !HasPrefix l "Deprecated: ") = false := by
    unfold Casing at hc
    cases h1 : HasPrefix (ToUpper U l) "DEPRECATED: " <;>
      cases h2 : HasPrefix l "Deprecated: " <;> simp_all
  have hp2 : HasPrefix l "Deprecated, " = false := by
    unfold Punctuation at hp
    simpa using hp
  have hph2 : (c.Init.commonPatterns.any fun pat => pat.MatchString l) = false := by
    have := mt (commonPatterns_any_iff c l).mp hph
    simpa using this
  have ht2 : (c.Init.commonTypos.any fun prefixWithTypo => HasPrefix l prefixWithTypo) = false := by
    have := mt (typos_any_iff c.Init l).mp ht
    simpa using this
  rw [visitLines, h12, if_neg (by omega)]
  simp only [hc2, hp2, hph2, ht2, Bool.false_eq_true, if_false]

/-- The slice in `warnCasing` is in range for a line of at least 12 bytes. -/
theorem warnCasing_ok (cause : ast.Node) (l : String) (h : 12 ≤ l.utf8ByteSize) :
    ∃ w, warnCasing cause l = .ok w := by
  have h12 : "DEPRECATED: ".utf8ByteSize = 12 := by decide
  unfold warnCasing sliceTo
  rw [h12, if_pos h]
  exact ⟨_, rfl⟩

theorem splitChars_ne_nil (sep : Char) (fuel : Nat) (s : List Char) :
    splitChars sep fuel s ≠ [] := by
  cases fuel with
  | zero => simp [splitChars]
  | succ n =>
    rw [splitChars]
    cases (cut sep s).2 <;> simp

/-- Indexing the split line with 0 in `warnTypo` is in range. -/
theorem warnTypo_ok (cause : ast.Node) (l : String) : ∃ w, warnTypo cause l = .ok w := by
  unfold warnTypo
  cases hs : Split l ':' with
  | nil => exact absurd hs (splitChars_ne_nil _ _ _)
  | cons word rest => exact ⟨_, rfl⟩

theorem map_singleton_ne_ok_nil (r : Except Panic Warning) :
    (r.map fun w => [w]) ≠ .ok [] := by
  cases r with
  | error e => intro h; cases h
  | ok w => intro h; cases h

/-- One step of the loop: a line on its own either yields nothing, and is then skipped, or
yields a result that ends the loop. -/
theorem visitLines_cons_cases (U : Char → Char) (c : deprecatedCommentChecker)
    (doc : ast.CommentGroup) (l : String) (ls : List String) :
    (visitLines U c doc [l] = .ok [] ∧ visitLines U c doc (l :: ls) = visitLines U c doc ls) ∨
    (visitLines U c doc [l] ≠ .ok [] ∧ visitLines U c doc (l :: ls) = visitLines U c doc [l]) := by
  rw [visitLines.eq_2 U c doc l ls, visitLines.eq_2 U c doc l [], visitLines.eq_1]
  by_cases h1 : l.utf8ByteSize < "Deprecated: ".utf8ByteSize
  · simp only [if_pos h1]
    refine Or.inl ⟨?_, ?_⟩ <;> first | rfl | trivial
  simp only [if_neg h1]
  by_cases h2 : (HasPrefix (ToUpper U l) "DEPRECATED: " && !HasPrefix l "Deprecated: ") = true
  · simp only [if_pos h2]
    refine Or.inr ⟨map_singleton_ne_ok_nil _, ?_⟩
    first | rfl | trivial
  simp only [if_neg h2]
  by_cases h3 : HasPrefix l "Deprecated, " = true
  · simp only [if_pos h3]
    refine Or.inr ⟨(by intro h; cases h), ?_⟩
    first | rfl | trivial
  simp only [if_neg h3]
  by_cases h4 : (c.commonPatterns.any fun pat => pat.MatchString l) = true
  · simp only [if_pos h4]
    refine Or.inr ⟨(by intro h; cases h), ?_⟩
    first | rfl | trivial
  simp only [if_neg h4]
  by_cases h5 : (c.commonTypos.any fun prefixWithTypo => HasPrefix l prefixWithTypo) = true
  · simp only [if_pos h5]
    refine Or.inr ⟨map_singleton_ne_ok_nil _, ?_⟩
    first | rfl | trivial
  simp only [if_neg h5]
  refine Or.inl ⟨?_, ?_⟩ <;> first | rfl | trivial

theorem visitLines_single_ok (U : Char → Char) (c : deprecatedCommentChecker)
    (doc : ast.CommentGroup) (l : String) :
    ∃ ws, visitLines U c doc [l] = .ok ws ∧ ws.length ≤ 1 := by
  have h12 : "Deprecated: ".utf8ByteSize = 12 := by decide
  rw [visitLines.eq_2 U c doc l [], visitLines.eq_1]
  by_cases h1 : l.utf8ByteSize < "Deprecated: ".utf8ByteSize
  · simp only [if_pos h1]
    exact ⟨[], rfl, by simp⟩
  simp only [if_neg h1]
  rw [h12] at h1
  by_cases h2 : (HasPrefix (ToUpper U l) "DEPRECATED: " && !HasPrefix l "Deprecated: ") = true
  · simp only [if_pos h2]
    obtain ⟨w, hw⟩ := warnCasing_ok (.CommentGroup doc) l (by omega)
    exact ⟨[w], by rw [hw]; rfl, by simp⟩
  simp only [if_neg h2]
  by_cases h3 : HasPrefix l "Deprecated, " = true
  · simp only [if_pos h3]
    exact ⟨_, rfl, by simp⟩
  simp only [if_neg h3]
  by_cases h4 : (c.commonPatterns.any fun pat => pat.MatchString l) = true
  · simp only [if_pos h4]
    exact ⟨_, rfl, by simp⟩
  simp only [if_neg h4]
  by_cases h5 : (c.commonTypos.any fun prefixWithTypo => HasPrefix l prefixWithTypo) = true
  · simp only [if_pos h5]
    obtain ⟨w, hw⟩ := warnTypo_ok (.CommentGroup doc) l
    exact ⟨[w], by rw [hw]; rfl, by simp⟩
  simp only [if_neg h5]
  exact ⟨[], rfl, by simp⟩

theorem visitLines_ok (U : Char → Char) (c : deprecatedCommentChecker)
    (doc : ast.CommentGroup) (lines : List String) :
    ∃ ws, visitLines U c doc lines = .ok ws ∧ ws.length ≤ 1 := by
  induction lines with
  | nil => exact ⟨[], rfl, by simp⟩
  | cons l ls ih =>
    rcases visitLines_cons_cases U c doc l ls with ⟨-, h⟩ | ⟨-, h⟩
    · rw [h]
      exact ih
    · rw [h]
      exact visitLines_single_ok U c doc l

/-- C10: `VisitDocComment` returns at most one diagnostic, and it is the diagnostic of the
first line that yields one when visited on its own: with `check` the loop of
`VisitDocComment` over a list of lines (`VisitDocComment` is `check` on the lines of the
text), `check (l :: ls)` is `check ls` when `check [l]` is empty and is `check [l]` otherwise,
so the lines after the first violating one do not change the output. -/
theorem visitDocComment_first_violation (unicodeToUpper : Char → Char)
    (c : deprecatedCommentChecker) (doc : ast.CommentGroup) :
    (∃ ws, VisitDocComment unicodeToUpper c doc = .ok ws ∧ ws.length ≤ 1) ∧
    VisitDocComment unicodeToUpper c doc =
      visitLines unicodeToUpper c doc (Split doc.Text '\n') ∧
    ∀ (l : String) (ls : List String),
      (visitLines unicodeToUpper c doc [l] = .ok [] →
        visitLines unicodeToUpper c doc (l :: ls) = visitLines unicodeToUpper c doc ls) ∧
      (visitLines unicodeToUpper c doc [l] ≠ .ok [] →
        visitLines unicodeToUpper c doc (l :: ls) = visitLines unicodeToUpper c doc [l]) := by
  refine ⟨visitLines_ok unicodeToUpper c doc _, rfl, ?_⟩
  intro l ls
  rcases visitLines_cons_cases unicodeToUpper c doc l ls with ⟨h1, h2⟩ | ⟨h1, h2⟩
  · exact ⟨fun _ => h2, fun hne => absurd h1 hne⟩
  · exact ⟨fun he => absurd he h1, fun _ => h2⟩

/-- C10 on a group of three lines, the first clean, the second and third both violating: the
second line decides. -/
theorem visitDocComment_first_violation_witness :
    VisitDocComment Char.toUpper newDeprecatedCommentChecker mixedGroup =
      .ok [warnComma (.CommentGroup mixedGroup)] := by
  have h := (visitDocComment_first_violation Char.toUpper newDeprecatedCommentChecker
    mixedGroup).2.2
  have h1 := (h "Deprecated: use X instead"
    ["Deprecated, use X instead", "DEPRECATED: use X instead", ""]).1 rfl
  have h2 := (h "Deprecated, use X instead" ["DEPRECATED: use X instead", ""]).2
    (by intro hh; cases hh)
  exact h1.trans (h2.trans rfl)

/-- A trailing empty line, as the newline at the end of `doc.Text()` produces it, does not
change the result. -/
theorem visitLines_trailing_empty (U : Char → Char) (c : deprecatedCommentChecker)
    (doc : ast.CommentGroup) (l : String) :
    visitLines U c doc [l, ""] = visitLines U c doc [l] := by
  rcases visitLines_cons_cases U c doc l [""] with ⟨h1, h2⟩ | ⟨-, h2⟩
  · rw [h2, h1, visitLines_short U c doc "" [] (by decide)]
    rfl
  · exact h2

/-- C9: the diagnostic `VisitDocComment` returns for a comment group of one line `l` (its
text is `l`, or `l` and the newline that `doc.Text()` puts after the last line) is decided by
the first applicable case, in this order: none if `l` is shorter than 12 bytes; casing if the
upper-cased `l` starts with "DEPRECATED: " and `l` does not start with "Deprecated: ";
punctuation if `l` starts with "Deprecated, "; phrasing if `l` contains, case-insensitively,
"this function is deprecated" or "this type is deprecated", or "deprecated", an optional '.'
or '!', " use ", a possibly empty run of non-whitespace characters and " instead"; typo if `l`
starts with one of the nine misspellings of the catalog; none otherwise. Whitespace is that
of the pattern class `\s` and case-insensitive is Unicode simple case folding, as in the
patterns of the rule. -/
theorem visitDocComment_single_line (unicodeToUpper : Char → Char)
    (c : deprecatedCommentChecker) (doc : ast.CommentGroup) (l : String)
    (hdoc : Split doc.Text '\n' = [l] ∨ Split doc.Text '\n' = [l, ""]) :
    (l.utf8ByteSize < 12 →
      VisitDocComment unicodeToUpper c.Init doc = .ok []) ∧
    (12 ≤ l.utf8ByteSize → Casing unicodeToUpper l →
      ∃ w, warnCasing (.CommentGroup doc) l = .ok w ∧
        VisitDocComment unicodeToUpper c.Init doc = .ok [w]) ∧
    (12 ≤ l.utf8ByteSize → ¬ Casing unicodeToUpper l → Punctuation l →
      VisitDocComment unicodeToUpper c.Init doc = .ok [warnComma (.CommentGroup doc)]) ∧
    (12 ≤ l.utf8ByteSize → ¬ Casing unicodeToUpper l → ¬ Punctuation l → Phrasing l →
      VisitDocComment unicodeToUpper c.Init doc = .ok [warnPattern (.CommentGroup doc)]) ∧
    (12 ≤ l.utf8ByteSize → ¬ Casing unicodeToUpper l → ¬ Punctuation l → ¬ Phrasing l →
      Typo c.Init l →
      ∃ w, warnTypo (.CommentGroup doc) l = .ok w ∧
        VisitDocComment unicodeToUpper c.Init doc = .ok [w]) ∧
    (12 ≤ l.utf8ByteSize → ¬ Casing unicodeToUpper l → ¬ Punctuation l → ¬ Phrasing l →
      ¬ Typo c.Init l →
      VisitDocComment unicodeToUpper c.Init doc = .ok []) := by
  have hv : VisitDocComment unicodeToUpper c.Init doc =
      visitLines unicodeToUpper c.Init doc [l] := by
    unfold VisitDocComment
    rcases hdoc with h | h
    · rw [h]
    · rw [h, visitLines_trailing_empty]
  rw [hv]
  refine ⟨?_, ?_, ?_, ?_, ?_, ?_⟩
  · intro h
    rw [visitLines_short _ _ _ _ _ h]
    rfl
  · intro h hc
    obtain ⟨w, hw⟩ := warnCasing_ok (.CommentGroup doc) l h
    refine ⟨w, hw, ?_⟩
    rw [visitLines_casing _ _ _ _ _ h hc, hw]
    rfl
  · intro h hc hp
    exact visitLines_punctuation _ _ _ _ _ h hc hp
  · intro h hc hp hph
    exact visitLines_phrasing _ _ _ _ _ h hc hp hph
  · intro h hc hp hph ht
    obtain ⟨w, hw⟩ := warnTypo_ok (.CommentGroup doc) l
    refine ⟨w, hw, ?_⟩
    rw [visitLines_typo _ _ _ _ _ h hc hp hph ht, hw]
    rfl
  · intro h hc hp hph ht
    rw [visitLines_clean _ _ _ _ _ h hc hp hph ht]
    rfl

theorem not_phrasing_of_eval (c : deprecatedCommentChecker) (l : String)
    (h : (c.Init.commonPatterns.any fun pat => pat.MatchString l) = false) : ¬ Phrasing l := by
  intro hp
  rw [(commonPatterns_any_iff c l).mpr hp] at h
  cases h

/-- C9 on the four examples of the specification: `// DEPRECATED: use X instead` gives the
casing diagnostic, `// Deprecated, use X instead` the punctuation one,
`// this function is deprecated` the phrasing one and `// Dprecated: use X instead` the typo
one. -/
theorem visitDocComment_single_line_witness :
    (∃ w, warnCasing (.CommentGroup (commentGroup "DEPRECATED: use X instead\n"))
        "DEPRECATED: use X instead" = .ok w ∧
      VisitDocComment Char.toUpper newDeprecatedCommentChecker
        (commentGroup "DEPRECATED: use X instead\n") = .ok [w]) ∧
    VisitDocComment Char.toUpper newDeprecatedCommentChecker
        (commentGroup "Deprecated, use X instead\n") =
      .ok [warnComma (.CommentGroup (commentGroup "Deprecated, use X instead\n"))] ∧
    VisitDocComment Char.toUpper newDeprecatedCommentChecker
        (commentGroup "this function is deprecated\n") =
      .ok [warnPattern (.CommentGroup (commentGroup "this function is deprecated\n"))] ∧
    (∃ w, warnTypo (.CommentGroup (commentGroup "Dprecated: use X instead\n"))
        "Dprecated: use X instead" = .ok w ∧
      VisitDocComment Char.toUpper newDeprecatedCommentChecker
        (commentGroup "Dprecated: use X instead\n") = .ok [w]) := by
  refine ⟨?_, ?_, ?_, ?_⟩
  · exact (visitDocComment_single_line Char.toUpper ⟨[], []⟩
      (commentGroup "DEPRECATED: use X instead\n") "DEPRECATED: use X instead"
      (Or.inr (by decide))).2.1
      (by decide) ⟨by decide, by decide⟩
  · exact (visitDocComment_single_line Char.toUpper ⟨[], []⟩
      (commentGroup "Deprecated, use X instead\n") "Deprecated, use X instead"
      (Or.inr (by decide))).2.2.1
      (by decide) (by unfold Casing; decide) (by unfold Punctuation; decide)
  · exact (visitDocComment_single_line Char.toUpper ⟨[], []⟩
      (commentGroup "this function is deprecated\n") "this function is deprecated"
      (Or.inr (by decide))).2.2.2.1
      (by decide) (by unfold Casing; decide) (by unfold Punctuation; decide)
      ((commonPatterns_any_iff ⟨[], []⟩ _).mp (by decide))
  · exact (visitDocComment_single_line Char.toUpper ⟨[], []⟩
      (commentGroup "Dprecated: use X instead\n") "Dprecated: use X instead"
      (Or.inr (by decide))).2.2.2.2.1
      (by decide) (by unfold Casing; decide) (by unfold Punctuation; decide)
      (not_phrasing_of_eval ⟨[], []⟩ _ (by decide))
      ⟨"Dprecated: ", by decide, by decide⟩

theorem hasPrefix_iff (s p : String) : HasPrefix s p = true ↔ ∃ t, s.data = p.data ++ t := by
  unfold HasPrefix
  rw [List.isPrefixOf_iff_prefix]
  constructor
  · rintro ⟨t, ht⟩
    exact ⟨t, ht.symm⟩
  · rintro ⟨t, ht⟩
    exact ⟨t, ht.symm⟩

/-- A line with the canonical prefix has neither the comma form nor a catalog misspelling as
prefix, and is no casing violation. -/
theorem canonical_excludes (U : Char → Char) (c : deprecatedCommentChecker) (l : String)
    (h : HasPrefix l "Deprecated: " = true) :
    ¬ Casing U l ∧ ¬ Punctuation l ∧ ¬ Typo c.Init l := by
  obtain ⟨t, ht⟩ := (hasPrefix_iff l _).mp h
  refine ⟨?_, ?_, ?_⟩
  · rintro ⟨-, h2⟩
    rw [h] at h2
    cases h2
  · unfold Punctuation HasPrefix
    rw [ht]
    intro h2
    cases h2
  · rintro ⟨p, hp, h2⟩
    unfold HasPrefix at h2
    rw [ht] at h2
    simp only [deprecatedCommentChecker.Init, List.mem_cons, List.mem_singleton,
      List.not_mem_nil, or_false] at hp
    rcases hp with rfl | rfl | rfl | rfl | rfl | rfl | rfl | rfl | rfl <;> cases h2

/-- C3 (as amended): for a comment group in which every line (the empty lines apart, such as
the one the final newline of `doc.Text()` produces) begins with the canonical prefix
"Deprecated: " and is none of the loose phrasings, that is, matches no pattern of the rule,
`VisitDocComment` returns no diagnostic. -/
theorem visitDocComment_canonical (unicodeToUpper : Char → Char)
    (c : deprecatedCommentChecker) (doc : ast.CommentGroup)
    (h : ∀ l ∈ Split doc.Text '\n', l ≠ "" →
      HasPrefix l "Deprecated: " = true ∧ ¬ Phrasing l) :
    VisitDocComment unicodeToUpper c.Init doc = .ok [] := by
  unfold VisitDocComment
  generalize Split doc.Text '\n' = lines at h
  induction lines with
  | nil => rfl
  | cons l ls ih =>
    have hrest := ih fun x hx => h x (List.mem_cons_of_mem _ hx)
    rcases Nat.lt_or_ge l.utf8ByteSize 12 with hlt | hge
    · rw [visitLines_short _ _ _ _ _ hlt]
      exact hrest
    · have hne : l ≠ "" := by
        rintro rfl
        exact absurd hge (by decide)
      have hl := h l (List.mem_cons_self _ _) hne
      obtain ⟨h1, h2, h3⟩ := canonical_excludes unicodeToUpper c l hl.1
      rw [visitLines_clean _ _ _ _ _ hge h1 h2 hl.2 h3]
      exact hrest

/-- C3 (as amended) on the doc comment `// Deprecated: use X instead`. -/
theorem visitDocComment_canonical_witness :
    VisitDocComment Char.toUpper newDeprecatedCommentChecker
      (commentGroup "Deprecated: use X instead\n") = .ok [] :=
  visitDocComment_canonical Char.toUpper ⟨[], []⟩ _ (by
    intro l hl hne
    have hs : Split (commentGroup "Deprecated: use X instead\n").Text '\n' =
        ["Deprecated: use X instead", ""] := by decide
    rw [hs] at hl
    simp only [List.mem_cons, List.mem_singleton, List.not_mem_nil, or_false] at hl
    rcases hl with rfl | rfl
    · exact ⟨by decide, not_phrasing_of_eval ⟨[], []⟩ _ (by decide)⟩
    · exact absurd rfl hne)

/-- C3 (as stated) fails on `// Deprecated: this function is deprecated`: its line has the
canonical prefix and the rule still reports the phrasing. -/
theorem visitDocComment_canonical_counterexample :
    ¬ ((∀ l ∈ Split canonicalWithPhrasing.Text '\n', l ≠ "" →
          HasPrefix l "Deprecated: " = true) →
        VisitDocComment Char.toUpper newDeprecatedCommentChecker canonicalWithPhrasing =
          .ok []) := by
  intro h
  have hv : VisitDocComment Char.toUpper newDeprecatedCommentChecker canonicalWithPhrasing =
      .ok [warnPattern (.CommentGroup canonicalWithPhrasing)] := rfl
  have hall : ∀ l ∈ Split canonicalWithPhrasing.Text '\n', l ≠ "" →
      HasPrefix l "Deprecated: " = true := by
    intro l hl hne
    have hs : Split canonicalWithPhrasing.Text '\n' =
        ["Deprecated: this function is deprecated", ""] := by decide
    rw [hs] at hl
    simp only [List.mem_cons, List.mem_singleton, List.not_mem_nil, or_false] at hl
    rcases hl with rfl | rfl
    · decide
    · exact absurd rfl hne
  rw [hv] at h
  cases h hall

/-- C4: on the `Before` example of the rule's own documentation, the doc comment
`// deprecated, use FuncNew instead`, `VisitDocComment` returns no diagnostic. -/
theorem visitDocComment_documentedBefore :
    VisitDocComment Char.toUpper newDeprecatedCommentChecker documentedBefore = .ok [] := by
  rfl

open unexportedCallChecker

/-- What `checkCall` returns: one warning on the call when it resolves to an unexported method
of a named type whose name differs from the recorded receiver name, nothing otherwise. -/
theorem checkCall_cases (isUpper : Char → Bool) (c : unexportedCallChecker)
    (call : ast.CallExpr) :
    ((∃ T, ResolvesToUnexportedMethod isUpper c.ctx call T ∧ T.Name ≠ c.recvName) ∧
      c.checkCall isUpper call = [warn call]) ∨
    ((¬ ∃ T, ResolvesToUnexportedMethod isUpper c.ctx call T ∧ T.Name ≠ c.recvName) ∧
      c.checkCall isUpper call = []) := by
  unfold checkCall ResolvesToUnexportedMethod
  cases hf : call.Fun with
  | SelectorExpr sel =>
    by_cases hexp : sel.Sel.IsExported isUpper = true
    · right
      simp [hexp]
    · have hexp2 : sel.Sel.IsExported isUpper = false := by simpa using hexp
      cases ht : c.ctx.TypesInfo.TypeOf (.Ident sel.Sel) with
      | none => right; simp [hexp2, ht]
      | some t =>
        cases t with
        | Signature sig =>
          cases hr : sig.Recv with
          | none => right; simp [hexp2, ht, hr]
          | some recv =>
            cases hty : recv.Typ with
            | none => right; simp [hexp2, ht, hr, hty]
            | some ty =>
              cases ty with
              | Named T =>
                by_cases hn : T.Name = c.recvName
                · right; simp [hexp2, ht, hr, hty, hn]
                · left; simp [hexp2, ht, hr, hty, hn]
              | _ => right; simp [hexp2, ht, hr, hty]
        | _ => right; simp [hexp2, ht]
  | _ => right; simp

theorem warn_singleton_ne_nil (call : ast.CallExpr) : [warn call] ≠ ([] : List Warning) := by
  intro h
  cases h

/-- After a reset to the empty receiver name, `checkCall` flags exactly the calls that resolve
to an unexported method of a named type. -/
theorem checkCall_empty_recvName (isUpper : Char → Bool) (ctx : context)
    (call : ast.CallExpr) :
    (checkCall isUpper { ctx := ctx, recvName := "" } call = [warn call] ↔
      ∃ T, ResolvesToUnexportedMethod isUpper ctx call T) ∧
    (checkCall isUpper { ctx := ctx, recvName := "" } call = [] ↔
      ¬ ∃ T, ResolvesToUnexportedMethod isUpper ctx call T) := by
  rcases checkCall_cases isUpper { ctx := ctx, recvName := "" } call with
    ⟨⟨T, hT, -⟩, hres⟩ | ⟨hc, hres⟩
  · rw [hres]
    exact ⟨⟨fun _ => ⟨T, hT⟩, fun _ => rfl⟩,
      ⟨fun h => absurd h (warn_singleton_ne_nil call), fun h => absurd ⟨T, hT⟩ h⟩⟩
  · have hno : ¬ ∃ T, ResolvesToUnexportedMethod isUpper ctx call T :=
      fun ⟨T, hT⟩ => hc ⟨T, hT, T.name_ne_empty⟩
    rw [hres]
    exact ⟨⟨fun h => absurd h.symm (warn_singleton_ne_nil call), fun h => absurd h hno⟩,
      ⟨fun _ => hno, fun _ => rfl⟩⟩

/-- C6: for every call expression and every current receiver binding name `r`, `checkCall`
emits a diagnostic (exactly one, on the call) if and only if the callee is a selector
expression, the selected member name is unexported, the type resolver gives the member a
signature that has a receiver whose type is a named type, and the name of that named type is
different from `r`; in every other case it emits nothing. -/
theorem checkCall_iff (unicodeIsUpper : Char → Bool) (ctx : context) (r : String)
    (call : ast.CallExpr) :
    (checkCall unicodeIsUpper { ctx := ctx, recvName := r } call = [warn call] ↔
      ∃ T, ResolvesToUnexportedMethod unicodeIsUpper ctx call T ∧ T.Name ≠ r) ∧
    (checkCall unicodeIsUpper { ctx := ctx, recvName := r } call = [] ↔
      ¬ ∃ T, ResolvesToUnexportedMethod unicodeIsUpper ctx call T ∧ T.Name ≠ r) := by
  rcases checkCall_cases unicodeIsUpper { ctx := ctx, recvName := r } call with
    ⟨hc, hres⟩ | ⟨hc, hres⟩
  · rw [hres]
    exact ⟨⟨fun _ => hc, fun _ => rfl⟩,
      ⟨fun h => absurd h (warn_singleton_ne_nil call), fun h => absurd hc h⟩⟩
  · rw [hres]
    exact ⟨⟨fun h => absurd h.symm (warn_singleton_ne_nil call), fun h => absurd h hc⟩,
      ⟨fun _ => hc, fun _ => rfl⟩⟩

/-- The reset of `PerFuncInit` on a declaration with a body that lacks a single named
receiver: the flag is true and the receiver name is the empty string. -/
theorem perFuncInit_no_named_receiver (c : unexportedCallChecker) (decl : ast.FuncDecl)
    (body : ast.BlockStmt) (hb : decl.Body = some body) (hr : ¬ HasOneNamedReceiver decl) :
    c.PerFuncInit decl = (true, { ctx := c.ctx, recvName := "" }) := by
  unfold PerFuncInit
  rw [hb]
  cases hrecv : decl.Recv with
  | none => rfl
  | some recv =>
    cases hl : recv.List with
    | nil => simp [hl]
    | cons f fs =>
      cases fs with
      | nil =>
        cases hn : f.Names with
        | nil => simp [hl, hn]
        | cons n ns =>
          cases ns with
          | nil => exact absurd ⟨recv, f, n, hrecv, hl, hn⟩ hr
          | cons m ms => simp [hl, hn]
      | cons g gs => simp [hl]

/-- C8 (as amended): for every function declaration with a body that does not have exactly one
receiver parameter with exactly one bound name, the checks inside it are not suppressed:
`PerFuncInit` records the empty string as receiver name, and in a declaration without receiver
(a free function) `checkCall` then emits a diagnostic for exactly the calls whose callee
selects an unexported member that resolves to a method whose receiver type is a named type. -/
theorem checkCall_without_named_receiver (unicodeIsUpper : Char → Bool)
    (c : unexportedCallChecker) (decl : ast.FuncDecl) (body : ast.BlockStmt)
    (hb : decl.Body = some body) (hr : ¬ HasOneNamedReceiver decl) :
    (c.PerFuncInit decl).1 = true ∧ (c.PerFuncInit decl).2.recvName = "" ∧
    (decl.Recv = none → ∀ call : ast.CallExpr,
      (checkCall unicodeIsUpper (c.PerFuncInit decl).2 call = [warn call] ↔
        ∃ T, ResolvesToUnexportedMethod unicodeIsUpper c.ctx call T) ∧
      (checkCall unicodeIsUpper (c.PerFuncInit decl).2 call = [] ↔
        ¬ ∃ T, ResolvesToUnexportedMethod unicodeIsUpper c.ctx call T)) := by
  rw [perFuncInit_no_named_receiver c decl body hb hr]
  refine ⟨rfl, rfl, ?_⟩
  intro _ call
  exact checkCall_empty_recvName unicodeIsUpper c.ctx call

/-- C8 (as amended) on the method `func (foo) baz()` with an unnamed receiver: `PerFuncInit`
accepts it and records the empty receiver name. -/
theorem checkCall_without_named_receiver_witness :
    ¬ HasOneNamedReceiver bazUnnamedReceiver ∧
      (newUnexportedCallChecker.PerFuncInit bazUnnamedReceiver).1 = true ∧
      (newUnexportedCallChecker.PerFuncInit bazUnnamedReceiver).2.recvName = "" :=
  have hr : ¬ HasOneNamedReceiver bazUnnamedReceiver := by
    rintro ⟨recv, field, name, h1, h2, h3⟩
    cases h1
    cases h2
    cases h3
  have h := checkCall_without_named_receiver Char.isUpper newUnexportedCallChecker
    bazUnnamedReceiver _ rfl hr
  ⟨hr, h.1, h.2.1⟩

/-- C8 (as stated) fails on the free function `func baz()` of the package documentation: it
has no receiver, and after `PerFuncInit` the call `fo.bar()` of its body is flagged, not
suppressed. -/
theorem checkCall_without_named_receiver_counterexample :
    ¬ (¬ HasOneNamedReceiver bazFree →
        ∀ call : ast.CallExpr,
          checkCall Char.isUpper (newUnexportedCallChecker.PerFuncInit bazFree).2 call = []) := by
  intro h
  have hr : ¬ HasOneNamedReceiver bazFree := by
    rintro ⟨recv, field, name, h1, -, -⟩
    cases h1
  have h1 := h hr (callBar "fo")
  have h2 : checkCall Char.isUpper (newUnexportedCallChecker.PerFuncInit bazFree).2
      (callBar "fo") = [warn (callBar "fo")] := rfl
  rw [h2] at h1
  cases h1

/-- C2: in the method `func (f foo) baz()` of the type `foo` itself, `PerFuncInit` records the
receiver variable `f`, and `checkCall` flags the call `f.bar()` of the unexported method `bar`
of `foo`, since the type name `foo` differs from `f`. -/
theorem checkCall_inside_own_method :
    (newUnexportedCallChecker.PerFuncInit bazOfFoo).2.recvName = "f" ∧
      checkCall Char.isUpper (newUnexportedCallChecker.PerFuncInit bazOfFoo).2 (callBar "f") =
        [warn (callBar "f")] :=
  ⟨rfl, rfl⟩

end lint

namespace ast

section

variable {σ : Type}

theorem walkIdentList_eq (f : Option Node → σ → Bool × σ)
    (hT : ∀ n s, (f (some n) s).1 = true) (hN : ∀ s, (f none s).2 = s) :
    ∀ (names : List Ident) (s : σ),
      walkIdentList f names s =
        (names.map (fun id => Node.Expr (.Ident id))).foldl (visit f) s
  | [], s => rfl
  | x :: xs, s => by
    simp only [walkIdentList, hT, hN, if_true, List.map_cons, List.foldl_cons, visit]
    exact walkIdentList_eq f hT hN xs _

/-! For a callback that always answers true and leaves the state alone on nil, the walk is the
fold of the callback over the nodes in pre-order. -/

mutual
theorem walk_Expr_eq (f : Option Node → σ → Bool × σ)
    (hT : ∀ n s, (f (some n) s).1 = true) (hN : ∀ s, (f none s).2 = s) :
    ∀ (e : Expr) (s : σ), e.walk f s = e.preorder.foldl (visit f) s
  | .Ident id, s => by simp only [Expr.walk, Expr.preorder, hT, hN, if_true, List.foldl_cons, List.foldl_append, List.foldl_nil, List.append_assoc, List.nil_append, List.append_nil, visit]
  | .BasicLit p v, s => by simp only [Expr.walk, Expr.preorder, hT, hN, if_true, List.foldl_cons, List.foldl_append, List.foldl_nil, List.append_assoc, List.nil_append, List.append_nil, visit]
  | .CallExpr call, s => by
    rw [Expr.walk, Expr.preorder]; exact walk_CallExpr_eq f hT hN call s
  | .SelectorExpr sel, s => by
    rw [Expr.walk, Expr.preorder]; exact walk_SelectorExpr_eq f hT hN sel s
  | .FuncLit lit, s => by
    rw [Expr.walk, Expr.preorder]; exact walk_FuncLit_eq f hT hN lit s
  | .FuncType typ, s => by
    rw [Expr.walk, Expr.preorder]; exact walk_FuncType_eq f hT hN typ s
  | .ParenExpr p x, s => by
    simp only [Expr.walk, Expr.preorder, hT, hN, if_true, List.foldl_cons, List.foldl_append, List.foldl_nil, List.append_assoc, List.nil_append, List.append_nil, visit, walk_Expr_eq f hT hN x]
  | .StarExpr p x, s => by
    simp only [Expr.walk, Expr.preorder, hT, hN, if_true, List.foldl_cons, List.foldl_append, List.foldl_nil, List.append_assoc, List.nil_append, List.append_nil, visit, walk_Expr_eq f hT hN x]
  | .UnaryExpr p op x, s => by
    simp only [Expr.walk, Expr.preorder, hT, hN, if_true, List.foldl_cons, List.foldl_append, List.foldl_nil, List.append_assoc, List.nil_append, List.append_nil, visit, walk_Expr_eq f hT hN x]
  | .BinaryExpr x op y, s => by
    simp only [Expr.walk, Expr.preorder, hT, hN, if_true, List.foldl_cons, List.foldl_append, List.foldl_nil, List.append_assoc, List.nil_append, List.append_nil, visit, walk_Expr_eq f hT hN x,
      walk_Expr_eq f hT hN y]
  | .Other kind children, s => by
    simp only [Expr.walk, Expr.preorder, hT, hN, if_true, List.foldl_cons, List.foldl_append, List.foldl_nil, List.append_assoc, List.nil_append, List.append_nil, visit, walkNodes_eq f hT hN children]
theorem walkOptExpr_eq (f : Option Node → σ → Bool × σ)
    (hT : ∀ n s, (f (some n) s).1 = true) (hN : ∀ s, (f none s).2 = s) :
    ∀ (o : Option Expr) (s : σ), walkOptExpr f o s = (preorderOptExpr o).foldl (visit f) s
  | none, s => by simp only [walkOptExpr, preorderOptExpr, List.foldl_nil]
  | some x, s => by simp only [walkOptExpr, preorderOptExpr, walk_Expr_eq f hT hN x]
theorem walkExprList_eq (f : Option Node → σ → Bool × σ)
    (hT : ∀ n s, (f (some n) s).1 = true) (hN : ∀ s, (f none s).2 = s) :
    ∀ (l : List Expr) (s : σ), walkExprList f l s = (preorderExprList l).foldl (visit f) s
  | [], s => by simp only [walkExprList, preorderExprList, List.foldl_append, List.foldl_nil]
  | x :: xs, s => by
    simp only [walkExprList, preorderExprList, List.foldl_append, List.foldl_nil, walk_Expr_eq f hT hN x, walkExprList_eq f hT hN xs]
theorem walk_CallExpr_eq (f : Option Node → σ → Bool × σ)
    (hT : ∀ n s, (f (some n) s).1 = true) (hN : ∀ s, (f none s).2 = s) :
    ∀ (e : CallExpr) (s : σ), e.walk f s = e.preorder.foldl (visit f) s
  | .mk fn lp args, s => by
    simp only [CallExpr.walk, CallExpr.preorder, hT, hN, if_true, List.foldl_cons, List.foldl_append, List.foldl_nil, List.append_assoc, List.nil_append, List.append_nil, visit, walk_Expr_eq f hT hN fn,
      walkExprList_eq f hT hN args]
theorem walk_SelectorExpr_eq (f : Option Node → σ → Bool × σ)
    (hT : ∀ n s, (f (some n) s).1 = true) (hN : ∀ s, (f none s).2 = s) :
    ∀ (e : SelectorExpr) (s : σ), e.walk f s = e.preorder.foldl (visit f) s
  | .mk x sel, s => by
    simp only [SelectorExpr.walk, SelectorExpr.preorder, hT, hN, if_true, List.foldl_cons, List.foldl_append, List.foldl_nil, List.append_assoc, List.nil_append, List.append_nil, visit, walk_Expr_eq f hT hN x]
theorem walk_FuncLit_eq (f : Option Node → σ → Bool × σ)
    (hT : ∀ n s, (f (some n) s).1 = true) (hN : ∀ s, (f none s).2 = s) :
    ∀ (e : FuncLit) (s : σ), e.walk f s = e.preorder.foldl (visit f) s
  | .mk typ body, s => by
    simp only [FuncLit.walk, FuncLit.preorder, hT, hN, if_true, List.foldl_cons, List.foldl_append, List.foldl_nil, List.append_assoc, List.nil_append, List.append_nil, visit, walk_FuncType_eq f hT hN typ,
      walk_BlockStmt_eq f hT hN body]
theorem walk_Field_eq (f : Option Node → σ → Bool × σ)
    (hT : ∀ n s, (f (some n) s).1 = true) (hN : ∀ s, (f none s).2 = s) :
    ∀ (e : Field) (s : σ), e.walk f s = e.preorder.foldl (visit f) s
  | .mk names typ, s => by
    simp only [Field.walk, Field.preorder, hT, hN, if_true, List.foldl_cons, List.foldl_append,
      walkIdentList_eq f hT hN names, walk_Expr_eq f hT hN typ, visit]
theorem walkFields_eq (f : Option Node → σ → Bool × σ)
    (hT : ∀ n s, (f (some n) s).1 = true) (hN : ∀ s, (f none s).2 = s) :
    ∀ (l : List Field) (s : σ), walkFields f l s = (preorderFields l).foldl (visit f) s
  | [], s => by simp only [walkFields, preorderFields, List.foldl_append, List.foldl_nil]
  | x :: xs, s => by
    simp only [walkFields, preorderFields, List.foldl_append, List.foldl_nil, walk_Field_eq f hT hN x, walkFields_eq f hT hN xs]
theorem walk_FieldList_eq (f : Option Node → σ → Bool × σ)
    (hT : ∀ n s, (f (some n) s).1 = true) (hN : ∀ s, (f none s).2 = s) :
    ∀ (e : FieldList) (s : σ), e.walk f s = e.preorder.foldl (visit f) s
  | .mk o l, s => by
    simp only [FieldList.walk, FieldList.preorder, hT, hN, if_true, List.foldl_cons, List.foldl_append, List.foldl_nil, List.append_assoc, List.nil_append, List.append_nil, visit, walkFields_eq f hT hN l]
theorem walkOptFieldList_eq (f : Option Node → σ → Bool × σ)
    (hT : ∀ n s, (f (some n) s).1 = true) (hN : ∀ s, (f none s).2 = s) :
    ∀ (o : Option FieldList) (s : σ),
      walkOptFieldList f o s = (preorderOptFieldList o).foldl (visit f) s
  | none, s => by simp only [walkOptFieldList, preorderOptFieldList, List.foldl_nil]
  | some x, s => by
    simp only [walkOptFieldList, preorderOptFieldList, walk_FieldList_eq f hT hN x]
theorem walk_FuncType_eq (f : Option Node → σ → Bool × σ)
    (hT : ∀ n s, (f (some n) s).1 = true) (hN : ∀ s, (f none s).2 = s) :
    ∀ (e : FuncType) (s : σ), e.walk f s = e.preorder.foldl (visit f) s
  | .mk fn params results, s => by
    simp only [FuncType.walk, FuncType.preorder, hT, hN, if_true, List.foldl_cons, List.foldl_append, List.foldl_nil,
      List.append_assoc, visit,
      walk_FieldList_eq f hT hN params, walkOptFieldList_eq f hT hN results]
theorem walk_Stmt_eq (f : Option Node → σ → Bool × σ)
    (hT : ∀ n s, (f (some n) s).1 = true) (hN : ∀ s, (f none s).2 = s) :
    ∀ (e : Stmt) (s : σ), e.walk f s = e.preorder.foldl (visit f) s
  | .ExprStmt x, s => by
    simp only [Stmt.walk, Stmt.preorder, hT, hN, if_true, List.foldl_cons, List.foldl_append, List.foldl_nil, List.append_assoc, List.nil_append, List.append_nil, visit, walk_Expr_eq f hT hN x]
  | .AssignStmt lhs tok rhs, s => by
    simp only [Stmt.walk, Stmt.preorder, hT, hN, if_true, List.foldl_cons, List.foldl_append, List.foldl_nil, List.append_assoc, List.nil_append, List.append_nil, visit, walkExprList_eq f hT hN lhs,
      walkExprList_eq f hT hN rhs]
  | .GoStmt g call, s => by
    simp only [Stmt.walk, Stmt.preorder, hT, hN, if_true, List.foldl_cons, List.foldl_append, List.foldl_nil, List.append_assoc, List.nil_append, List.append_nil, visit, walk_CallExpr_eq f hT hN call]
  | .DeferStmt stmt, s => by
    rw [Stmt.walk, Stmt.preorder]; exact walk_DeferStmt_eq f hT hN stmt s
  | .ReturnStmt stmt, s => by
    rw [Stmt.walk, Stmt.preorder]; exact walk_ReturnStmt_eq f hT hN stmt s
  | .BlockStmt block, s => by
    rw [Stmt.walk, Stmt.preorder]; exact walk_BlockStmt_eq f hT hN block s
  | .IfStmt i init cond body els, s => by
    simp only [Stmt.walk, Stmt.preorder, hT, hN, if_true, List.foldl_cons, List.foldl_append, List.foldl_nil,
      List.append_assoc, visit,
      walkOptStmt_eq f hT hN init, walk_Expr_eq f hT hN cond, walk_BlockStmt_eq f hT hN body,
      walkOptStmt_eq f hT hN els]
  | .ForStmt fo init cond post body, s => by
    simp only [Stmt.walk, Stmt.preorder, hT, hN, if_true, List.foldl_cons, List.foldl_append, List.foldl_nil,
      List.append_assoc, visit,
      walkOptStmt_eq f hT hN init, walkOptExpr_eq f hT hN cond, walkOptStmt_eq f hT hN post,
      walk_BlockStmt_eq f hT hN body]
  | .Other kind children, s => by
    simp only [Stmt.walk, Stmt.preorder, hT, hN, if_true, List.foldl_cons, List.foldl_append, List.foldl_nil, List.append_assoc, List.nil_append, List.append_nil, visit, walkNodes_eq f hT hN children]
theorem walkOptStmt_eq (f : Option Node → σ → Bool × σ)
    (hT : ∀ n s, (f (some n) s).1 = true) (hN : ∀ s, (f none s).2 = s) :
    ∀ (o : Option Stmt) (s : σ), walkOptStmt f o s = (preorderOptStmt o).foldl (visit f) s
  | none, s => by simp only [walkOptStmt, preorderOptStmt, List.foldl_nil]
  | some x, s => by simp only [walkOptStmt, preorderOptStmt, walk_Stmt_eq f hT hN x]
theorem walkStmtList_eq (f : Option Node → σ → Bool × σ)
    (hT : ∀ n s, (f (some n) s).1 = true) (hN : ∀ s, (f none s).2 = s) :
    ∀ (l : List Stmt) (s : σ), walkStmtList f l s = (preorderStmtList l).foldl (visit f) s
  | [], s => by simp only [walkStmtList, preorderStmtList, List.foldl_append, List.foldl_nil]
  | x :: xs, s => by
    simp only [walkStmtList, preorderStmtList, List.foldl_append, List.foldl_nil, walk_Stmt_eq f hT hN x, walkStmtList_eq f hT hN xs]
theorem walk_DeferStmt_eq (f : Option Node → σ → Bool × σ)
    (hT : ∀ n s, (f (some n) s).1 = true) (hN : ∀ s, (f none s).2 = s) :
    ∀ (e : DeferStmt) (s : σ), e.walk f s = e.preorder.foldl (visit f) s
  | .mk d call, s => by
    simp only [DeferStmt.walk, DeferStmt.preorder, hT, hN, if_true, List.foldl_cons, List.foldl_append, List.foldl_nil, List.append_assoc, List.nil_append, List.append_nil, visit, walk_CallExpr_eq f hT hN call]
theorem walk_ReturnStmt_eq (f : Option Node → σ → Bool × σ)
    (hT : ∀ n s, (f (some n) s).1 = true) (hN : ∀ s, (f none s).2 = s) :
    ∀ (e : ReturnStmt) (s : σ), e.walk f s = e.preorder.foldl (visit f) s
  | .mk p results, s => by
    simp only [ReturnStmt.walk, ReturnStmt.preorder, hT, hN, if_true, List.foldl_cons, List.foldl_append, List.foldl_nil, List.append_assoc, List.nil_append, List.append_nil, visit, walkExprList_eq f hT hN results]
theorem walk_BlockStmt_eq (f : Option Node → σ → Bool × σ)
    (hT : ∀ n s, (f (some n) s).1 = true) (hN : ∀ s, (f none s).2 = s) :
    ∀ (e : BlockStmt) (s : σ), e.walk f s = e.preorder.foldl (visit f) s
  | .mk lb l, s => by
    simp only [BlockStmt.walk, BlockStmt.preorder, hT, hN, if_true, List.foldl_cons, List.foldl_append, List.foldl_nil, List.append_assoc, List.nil_append, List.append_nil, visit, walkStmtList_eq f hT hN l]
theorem walk_Node_eq (f : Option Node → σ → Bool × σ)
    (hT : ∀ n s, (f (some n) s).1 = true) (hN : ∀ s, (f none s).2 = s) :
    ∀ (e : Node) (s : σ), e.walk f s = e.preorder.foldl (visit f) s
  | .Expr e, s => by rw [Node.walk, Node.preorder]; exact walk_Expr_eq f hT hN e s
  | .Stmt st, s => by rw [Node.walk, Node.preorder]; exact walk_Stmt_eq f hT hN st s
  | .CommentGroup g, s => by simp only [Node.walk, Node.preorder, hT, hN, if_true, List.foldl_cons, List.foldl_append, List.foldl_nil, List.append_assoc, List.nil_append, List.append_nil, visit]
  | .Field fd, s => by rw [Node.walk, Node.preorder]; exact walk_Field_eq f hT hN fd s
  | .FieldList l, s => by rw [Node.walk, Node.preorder]; exact walk_FieldList_eq f hT hN l s
theorem walkNodes_eq (f : Option Node → σ → Bool × σ)
    (hT : ∀ n s, (f (some n) s).1 = true) (hN : ∀ s, (f none s).2 = s) :
    ∀ (l : List Node) (s : σ), walkNodes f l s = (preorderNodes l).foldl (visit f) s
  | [], s => by simp only [walkNodes, preorderNodes, List.foldl_append, List.foldl_nil]
  | x :: xs, s => by
    simp only [walkNodes, preorderNodes, List.foldl_append, List.foldl_nil, walk_Node_eq f hT hN x, walkNodes_eq f hT hN xs]
end

end

end ast

namespace checkers

/-- The check never panics: its result is its list of diagnostics. -/
theorem checkDeferBeforeReturn_ok (Sprint : ast.Node → String) (block : ast.BlockStmt) :
    checkDeferBeforeReturn Sprint block = .ok (diagnostics Sprint block) := by
  unfold diagnostics
  rcases checkDeferBeforeReturn_cases Sprint block _ (isRetIndex_scanReturn block.List) with
    ⟨-, h⟩ | ⟨-, s, -, ⟨d, -, h⟩ | ⟨-, h⟩⟩ <;> rw [h]

theorem inspectBlock_fst (Sprint : ast.Node → String) (n : ast.Node)
    (s : Except Panic (List Warning)) : (inspectBlock Sprint (some n) s).1 = true := by
  unfold inspectBlock
  split <;> rfl

/-- What the callback of `VisitFuncDecl` does to the sink at one node. -/
theorem visit_inspectBlock (Sprint : ast.Node → String) (n : ast.Node) (ws : List Warning) :
    ast.visit (inspectBlock Sprint) (.ok ws) n =
      .ok (ws ++ ((ast.asBlock n).toList.flatMap (diagnostics Sprint))) := by
  cases n with
  | Stmt st =>
    cases st with
    | BlockStmt b =>
      simp [ast.visit, inspectBlock, ast.asBlock, checkDeferBeforeReturn_ok]
    | _ => simp [ast.visit, inspectBlock, ast.asBlock]
  | _ => simp [ast.visit, inspectBlock, ast.asBlock]

theorem foldl_visit_inspectBlock (Sprint : ast.Node → String) (nodes : List ast.Node) :
    ∀ ws : List Warning,
      nodes.foldl (ast.visit (inspectBlock Sprint)) (.ok ws) =
        .ok (ws ++ (nodes.filterMap ast.asBlock).flatMap (diagnostics Sprint)) := by
  induction nodes with
  | nil => intro ws; simp
  | cons n ns ih =>
    intro ws
    rw [List.foldl_cons, visit_inspectBlock, ih]
    cases h : ast.asBlock n <;> simp [List.filterMap_cons, h]

/-- The diagnostics of `VisitFuncDecl` are those of the blocks of the body, in pre-order. -/
theorem visitFuncDecl_eq (Sprint : ast.Node → String) (funcDecl : ast.FuncDecl)
    (body : ast.BlockStmt) (hb : funcDecl.Body = some body) :
    VisitFuncDecl Sprint funcDecl =
      .ok ((ast.blocksPreorder body).flatMap (diagnostics Sprint)) := by
  unfold VisitFuncDecl ast.Inspect
  rw [hb]
  simp only [ast.Node.walk, ast.Stmt.walk]
  rw [ast.walk_BlockStmt_eq _ (inspectBlock_fst Sprint) (fun _ => rfl),
    foldl_visit_inspectBlock]
  rfl

theorem blocksPreorder_head (body : ast.BlockStmt) :
    ∃ rest, ast.blocksPreorder body = body :: rest := by
  cases body with
  | mk lb l => exact ⟨(ast.preorderStmtList l).filterMap ast.asBlock, rfl⟩

theorem checkDeferBeforeReturn_congr (Sprint : ast.Node → String) (b1 b2 : ast.BlockStmt)
    (h : b1.List = b2.List) :
    checkDeferBeforeReturn Sprint b1 = checkDeferBeforeReturn Sprint b2 := by
  unfold checkDeferBeforeReturn
  rw [h]

/-- C11: for every function body, the diagnostics of `VisitFuncDecl` are exactly the
concatenation, in the pre-order of the traversal, of the results of `checkDeferBeforeReturn` on
the body block and on every block statement nested in it at any depth; each result depends only
on the statement list of its block and never fails. Hence every diagnostic of any of these
blocks is among the diagnostics of the function, whatever the other blocks yield: a defer
immediately before a qualifying return in a nested block is flagged whether or not the
top-level block is flagged, and the other way round. -/
theorem visitFuncDecl_blocks (Sprint : ast.Node → String) (funcDecl : ast.FuncDecl)
    (body : ast.BlockStmt) (hb : funcDecl.Body = some body) :
    VisitFuncDecl Sprint funcDecl =
      .ok ((ast.blocksPreorder body).flatMap (diagnostics Sprint)) ∧
    (∃ rest, ast.blocksPreorder body = body :: rest) ∧
    (∀ b, checkDeferBeforeReturn Sprint b = .ok (diagnostics Sprint b)) ∧
    (∀ b1 b2 : ast.BlockStmt, b1.List = b2.List →
      checkDeferBeforeReturn Sprint b1 = checkDeferBeforeReturn Sprint b2) ∧
    (∀ b ∈ ast.blocksPreorder body, ∀ w ∈ diagnostics Sprint b,
      ∃ ws, VisitFuncDecl Sprint funcDecl = .ok ws ∧ w ∈ ws) := by
  refine ⟨visitFuncDecl_eq Sprint funcDecl body hb, blocksPreorder_head body,
    checkDeferBeforeReturn_ok Sprint, checkDeferBeforeReturn_congr Sprint, ?_⟩
  intro b hbm w hw
  exact ⟨_, visitFuncDecl_eq Sprint funcDecl body hb, List.mem_flatMap.mpr ⟨b, hbm, hw⟩⟩

/-- C11 on two functions: `func f() { if c { defer g(); return }; h() }`, where only the nested
block has the pattern, and `func f() { if c { h() }; defer g(); return }`, where only the
top-level block has it; each yields the one diagnostic on `defer g()`. -/
theorem visitFuncDecl_blocks_witness :
    VisitFuncDecl sprintDeferG declNestedOnly = .ok [warn sprintDeferG deferG] ∧
    VisitFuncDecl sprintDeferG declTopOnly = .ok [warn sprintDeferG deferG] ∧
    checkDeferBeforeReturn sprintDeferG blockCallOnly = .ok [] :=
  ⟨(visitFuncDecl_blocks sprintDeferG declNestedOnly _ rfl).1.trans rfl,
    (visitFuncDecl_blocks sprintDeferG declTopOnly _ rfl).1.trans rfl, rfl⟩

theorem hasDirectCall_not_qualifying (r : ast.ReturnStmt) (h : HasDirectCall r) :
    ¬ QualifyingReturn (ast.Stmt.ReturnStmt r) := by
  rintro ⟨r1, hEq, hNo⟩
  cases hEq
  obtain ⟨e, he, c, hc⟩ := h
  exact hNo e he c hc

/-- A defer in front of a return that has a direct call among its results is not the statement
the check reads. -/
theorem notFlaggedAt_of_call_return (Sprint : ast.Node → String) (block : ast.BlockStmt)
    (i : Nat) (r : ast.ReturnStmt)
    (hr : block.List[i + 1]? = some (ast.Stmt.ReturnStmt r)) (hc : HasDirectCall r) :
    NotFlaggedAt Sprint block i := by
  have hri := isRetIndex_scanReturn block.List
  generalize scanReturn block.List.length 0 block.List = k at hri
  have hne : k ≠ i + 1 := by
    rintro rfl
    rcases hri with ⟨⟨s, hs, hq⟩, -⟩ | ⟨-, hlen⟩
    · rw [hr] at hs
      cases hs
      exact hasDirectCall_not_qualifying r hc hq
    · have := (List.getElem?_eq_some_iff.mp hr).1
      omega
  refine ⟨k, hri, hne, ?_⟩
  rcases checkDeferBeforeReturn_cases Sprint block k hri with
    ⟨-, h⟩ | ⟨hpos, s, hs, ⟨d, hd, h⟩ | ⟨-, h⟩⟩
  · exact Or.inl h
  · exact Or.inr ⟨d, hpos, by rw [hs, hd], h⟩
  · exact Or.inl h

/-- C12: for every block and index `i`, if the statement at `i` is a defer statement and the
statement at `i + 1` is a return statement whose results contain a direct call expression, then
`checkDeferBeforeReturn` does not flag the statement at `i`; so when the results of the return
behind a defer are replaced by results with a wrapping call, the defer in front of it is not
flagged. -/
theorem checkDeferBeforeReturn_call_return (Sprint : ast.Node → String) :
    (∀ (block : ast.BlockStmt) (i : Nat) (d : ast.DeferStmt) (r : ast.ReturnStmt),
      block.List[i]? = some (ast.Stmt.DeferStmt d) →
      block.List[i + 1]? = some (ast.Stmt.ReturnStmt r) → HasDirectCall r →
      NotFlaggedAt Sprint block i) ∧
    (∀ (lb : Nat) (pre post : List ast.Stmt) (d : ast.DeferStmt) (p : Nat)
        (results : List ast.Expr), HasDirectCall (.mk p results) →
      NotFlaggedAt Sprint
        (.mk lb (pre ++ ast.Stmt.DeferStmt d :: ast.Stmt.ReturnStmt (.mk p results) :: post))
        pre.length) := by
  constructor
  · intro block i d r _ hr hc
    exact notFlaggedAt_of_call_return Sprint block i r hr hc
  · intro lb pre post d p results hc
    refine notFlaggedAt_of_call_return Sprint _ pre.length (.mk p results) ?_ hc
    have hsplit : pre ++ ast.Stmt.DeferStmt d :: ast.Stmt.ReturnStmt (.mk p results) :: post =
        (pre ++ [ast.Stmt.DeferStmt d]) ++ ast.Stmt.ReturnStmt (.mk p results) :: post := by
      simp
    rw [ast.BlockStmt.List, hsplit, List.getElem?_append_right (by simp)]
    simp

/-- C12 on `{ defer g(); return x }`, which is flagged, and `{ defer g(); return wrap(x) }`,
where the defer is not flagged and nothing is reported. -/
theorem checkDeferBeforeReturn_call_return_witness :
    checkDeferBeforeReturn sprintDeferG blockReturnBare = .ok [warn sprintDeferG deferG] ∧
    NotFlaggedAt sprintDeferG blockReturnWrapped 0 ∧
    checkDeferBeforeReturn sprintDeferG blockReturnWrapped = .ok [] :=
  ⟨rfl,
    (checkDeferBeforeReturn_call_return sprintDeferG).1 blockReturnWrapped 0 deferG _ rfl rfl
      ⟨_, List.mem_singleton.mpr rfl, _, rfl⟩,
    rfl⟩

/-- C15: for every block, `checkDeferBeforeReturn` emits at most one diagnostic, and a flagged
statement stands in front of the first return statement that has no direct call among its
results, never behind it; in particular nothing is flagged when the first statement of the
block is such a return. -/
theorem checkDeferBeforeReturn_at_most_one (Sprint : ast.Node → String)
    (block : ast.BlockStmt) :
    (∃ ws, checkDeferBeforeReturn Sprint block = .ok ws ∧ ws.length ≤ 1) ∧
    (∀ r, FirstQualifyingReturnAt block.List r →
      checkDeferBeforeReturn Sprint block = .ok [] ∨
        ∃ j d, j < r ∧ block.List[j]? = some (ast.Stmt.DeferStmt d) ∧
          checkDeferBeforeReturn Sprint block = .ok [warn Sprint d]) ∧
    (FirstQualifyingReturnAt block.List 0 → checkDeferBeforeReturn Sprint block = .ok []) := by
  have hcases := fun r hr => checkDeferBeforeReturn_cases Sprint block r hr
  refine ⟨?_, ?_, ?_⟩
  · rcases hcases _ (isRetIndex_scanReturn block.List) with
      ⟨-, h⟩ | ⟨-, s, -, ⟨d, -, h⟩ | ⟨-, h⟩⟩
    · exact ⟨[], h, by simp⟩
    · exact ⟨_, h, by simp⟩
    · exact ⟨[], h, by simp⟩
  · intro r hr
    rcases hcases r (Or.inl hr) with ⟨-, h⟩ | ⟨hpos, s, hs, ⟨d, hd, h⟩ | ⟨-, h⟩⟩
    · exact Or.inl h
    · exact Or.inr ⟨r - 1, d, by omega, by rw [hs, hd], h⟩
    · exact Or.inl h
  · intro hr
    rcases hcases 0 (Or.inl hr) with ⟨-, h⟩ | ⟨hpos, -⟩
    · exact h
    · exact absurd hpos (Nat.lt_irrefl 0)

/-- C15 on `{ return; defer g(); return }`: the first statement is a qualifying return, and the
later defer in front of a return is not reported. -/
theorem checkDeferBeforeReturn_at_most_one_witness :
    FirstQualifyingReturnAt blockReturnFirst.List 0 ∧
    checkDeferBeforeReturn sprintDeferG blockReturnFirst = .ok [] :=
  have h : FirstQualifyingReturnAt blockReturnFirst.List 0 :=
    firstQualifying_zero _ _ ⟨_, rfl, by intro e he; cases he⟩
  ⟨h, (checkDeferBeforeReturn_at_most_one sprintDeferG blockReturnFirst).2.2 h⟩

/-- C18: for every block, the empty block and blocks without return statement included, the
index `retIndex - 1` at which `checkDeferBeforeReturn` reads the statement list is within
bounds whenever the read is reached, that is whenever `retIndex` is not 0; the check is total
and never fails. -/
theorem checkDeferBeforeReturn_in_bounds (Sprint : ast.Node → String)
    (block : ast.BlockStmt) :
    (scanReturn block.List.length 0 block.List ≠ 0 →
      1 ≤ scanReturn block.List.length 0 block.List ∧
      scanReturn block.List.length 0 block.List - 1 < block.List.length ∧
      ∃ s, block.List[scanReturn block.List.length 0 block.List - 1]? = some s) ∧
    IsRetIndex block.List (scanReturn block.List.length 0 block.List) ∧
    (∃ ws, checkDeferBeforeReturn Sprint block = .ok ws) ∧
    (block.List = [] → checkDeferBeforeReturn Sprint block = .ok []) := by
  have hri := isRetIndex_scanReturn block.List
  have hle := isRetIndex_le_length _ _ hri
  refine ⟨?_, hri, ⟨_, checkDeferBeforeReturn_ok Sprint block⟩, ?_⟩
  · intro hne
    have hlt : scanReturn block.List.length 0 block.List - 1 < block.List.length := by omega
    exact ⟨by omega, hlt, _, List.getElem?_eq_getElem hlt⟩
  · intro hnil
    unfold checkDeferBeforeReturn
    rw [hnil]
    rfl

/-- C18 on the empty block and on the documented block without return: both checks return. -/
theorem checkDeferBeforeReturn_in_bounds_witness :
    checkDeferBeforeReturn sprintDeferG (.mk 0 []) = .ok [] ∧
    scanReturn exampleBefore.List.length 0 exampleBefore.List - 1 < exampleBefore.List.length :=
  ⟨(checkDeferBeforeReturn_in_bounds sprintDeferG (.mk 0 [])).2.2.2 rfl,
    ((checkDeferBeforeReturn_in_bounds sprintDeferG exampleBefore).1 (by decide)).2.1⟩

end checkers

namespace lint

open strings regexp unexportedCallChecker

/-- C19: for every call whose callee selects a member that resolves to a method with a pointer
receiver, or with any receiver type that is not directly a named type, `checkCall` emits no
diagnostic, in every enclosing function and for every value of `recvName`. -/
theorem checkCall_non_named_receiver (unicodeIsUpper : Char → Bool) (c : unexportedCallChecker)
    (call : ast.CallExpr) (sel : ast.SelectorExpr) (sig : types.Signature) (recv : types.Var)
    (ty : types.Typ) (hf : call.Fun = ast.Expr.SelectorExpr sel)
    (ht : c.ctx.TypesInfo.TypeOf (.Ident sel.Sel) = some (.Signature sig))
    (hr : sig.Recv = some recv) (hty : recv.Typ = some ty)
    (hnot : ∀ T : types.TypeName, ty ≠ types.Typ.Named T) :
    checkCall unicodeIsUpper c call = [] := by
  rcases checkCall_cases unicodeIsUpper c call with
    ⟨⟨T, ⟨sel2, sig2, recv2, hf2, -, ht2, hr2, hty2⟩, -⟩, -⟩ | ⟨-, h⟩
  · rw [hf] at hf2
    cases hf2
    rw [ht] at ht2
    cases ht2
    rw [hr] at hr2
    cases hr2
    rw [hty] at hty2
    cases hty2
    exact absurd rfl (hnot T)
  · exact h

/-- C19 on `func (f *foo) bar() int`: the call `fo.bar()` is not flagged, in the free function
`baz` and with any other receiver name. -/
theorem checkCall_non_named_receiver_witness :
    checkCall Char.isUpper
        (unexportedCallChecker.PerFuncInit { ctx := pointerContext, recvName := "" } bazFree).2
        (callBar "fo") = [] ∧
      checkCall Char.isUpper { ctx := pointerContext, recvName := "qux" } (callBar "fo") = [] :=
  ⟨checkCall_non_named_receiver Char.isUpper _ (callBar "fo") _ _ _ pointerToFoo rfl rfl rfl rfl
      (by intro T h; cases h),
    checkCall_non_named_receiver Char.isUpper _ (callBar "fo") _ _ _ pointerToFoo rfl rfl rfl rfl
      (by intro T h; cases h)⟩

/-- On a declaration with a body, `PerFuncInit` accepts and records the receiver binding name
of the declaration, whatever the checker held before. -/
theorem perFuncInit_body (c : unexportedCallChecker) (decl : ast.FuncDecl)
    (body : ast.BlockStmt) (hb : decl.Body = some body) :
    c.PerFuncInit decl = (true, { ctx := c.ctx, recvName := receiverName decl }) := by
  unfold PerFuncInit receiverName
  rw [hb]
  cases hrecv : decl.Recv with
  | none => rfl
  | some recv =>
    cases hl : recv.List with
    | nil => simp [hl]
    | cons f fs =>
      cases fs with
      | nil =>
        cases hn : f.Names with
        | nil => simp [hl, hn]
        | cons n ns =>
          cases ns with
          | nil => simp [hl, hn]
          | cons m ms => simp [hl, hn]
      | cons g gs => simp [hl]

theorem perFuncInit_no_body (c : unexportedCallChecker) (decl : ast.FuncDecl)
    (hb : decl.Body = none) : c.PerFuncInit decl = (false, c) := by
  unfold PerFuncInit
  rw [hb]

theorem perFuncInit_ctx (c : unexportedCallChecker) (decl : ast.FuncDecl) :
    (c.PerFuncInit decl).2.ctx = c.ctx := by
  cases hb : decl.Body with
  | none => rw [perFuncInit_no_body c decl hb]
  | some body => rw [perFuncInit_body c decl body hb]

/-- The diagnostics of a run depend on the checker it starts with only through the context. -/
theorem runUnexportedCall_state (isUpper : Char → Bool)
    (localExprs : ast.FuncDecl → List ast.Expr) (decls : List ast.FuncDecl) :
    ∀ c1 c2 : unexportedCallChecker, c1.ctx = c2.ctx →
      (runUnexportedCall isUpper localExprs c1 decls).2 =
          (runUnexportedCall isUpper localExprs c2 decls).2 ∧
        (runUnexportedCall isUpper localExprs c1 decls).1.ctx = c1.ctx := by
  induction decls with
  | nil => intro c1 c2 _; exact ⟨rfl, rfl⟩
  | cons decl rest ih =>
    intro c1 c2 hctx
    simp only [runUnexportedCall]
    cases hb : decl.Body with
    | none =>
      rw [perFuncInit_no_body c1 decl hb, perFuncInit_no_body c2 decl hb]
      obtain ⟨h1, h2⟩ := ih c1 c2 hctx
      exact ⟨by simp [h1], h2⟩
    | some body =>
      rw [perFuncInit_body c1 decl body hb, perFuncInit_body c2 decl body hb, hctx]
      obtain ⟨-, h2⟩ := ih { ctx := c2.ctx, recvName := receiverName decl }
        { ctx := c2.ctx, recvName := receiverName decl } rfl
      exact ⟨rfl, h2⟩

/-- C14: for every function declaration with a body, `PerFuncInit` leaves the same receiver name
whatever `recvName` held before, and therefore `checkCall` emits the same diagnostics for the
calls of that function; the diagnostics of a run of the rule over a sequence of functions do not
depend on the state the rule starts with, so a second run over the same sequence, started in the
state the first run left, yields the identical diagnostic sequence. -/
theorem perFuncInit_resets (unicodeIsUpper : Char → Bool)
    (localExprs : ast.FuncDecl → List ast.Expr) :
    (∀ (c1 c2 : unexportedCallChecker) (decl : ast.FuncDecl) (body : ast.BlockStmt),
      decl.Body = some body →
      (c1.PerFuncInit decl).1 = true ∧
      (c1.PerFuncInit decl).2.recvName = (c2.PerFuncInit decl).2.recvName) ∧
    (∀ (c1 c2 : unexportedCallChecker) (decl : ast.FuncDecl) (body : ast.BlockStmt)
        (call : ast.CallExpr), decl.Body = some body → c1.ctx = c2.ctx →
      checkCall unicodeIsUpper (c1.PerFuncInit decl).2 call =
        checkCall unicodeIsUpper (c2.PerFuncInit decl).2 call) ∧
    (∀ (c1 c2 : unexportedCallChecker) (decls : List ast.FuncDecl), c1.ctx = c2.ctx →
      (runUnexportedCall unicodeIsUpper localExprs c1 decls).2 =
        (runUnexportedCall unicodeIsUpper localExprs c2 decls).2) ∧
    (∀ (c : unexportedCallChecker) (decls : List ast.FuncDecl),
      (runUnexportedCall unicodeIsUpper localExprs
          (runUnexportedCall unicodeIsUpper localExprs c decls).1 decls).2 =
        (runUnexportedCall unicodeIsUpper localExprs c decls).2) := by
  refine ⟨?_, ?_, ?_, ?_⟩
  · intro c1 c2 decl body hb
    rw [perFuncInit_body c1 decl body hb, perFuncInit_body c2 decl body hb]
    exact ⟨rfl, rfl⟩
  · intro c1 c2 decl body call hb hctx
    rw [perFuncInit_body c1 decl body hb, perFuncInit_body c2 decl body hb, hctx]
  · intro c1 c2 decls hctx
    exact (runUnexportedCall_state unicodeIsUpper localExprs decls c1 c2 hctx).1
  · intro c decls
    have h := (runUnexportedCall_state unicodeIsUpper localExprs decls c c rfl).2
    exact (runUnexportedCall_state unicodeIsUpper localExprs decls _ c h).1

/-- C14 on the functions `func (f foo) baz()` and `func baz()`: the free function, visited after
the method, is checked with the empty receiver name, and a run started with a stale receiver
name yields the diagnostics of a fresh run. -/
theorem perFuncInit_resets_witness :
    ((newUnexportedCallChecker.PerFuncInit bazOfFoo).2.PerFuncInit bazFree).2.recvName = "" ∧
    (runUnexportedCall Char.isUpper bodyExprs { ctx := exampleContext, recvName := "stale" }
        [bazOfFoo, bazFree]).2 =
      (runUnexportedCall Char.isUpper bodyExprs newUnexportedCallChecker
        [bazOfFoo, bazFree]).2 :=
  ⟨((perFuncInit_resets Char.isUpper bodyExprs).1
      (newUnexportedCallChecker.PerFuncInit bazOfFoo).2 newUnexportedCallChecker bazFree _
      rfl).2.trans rfl,
    (perFuncInit_resets Char.isUpper bodyExprs).2.2.1 _ _ _ rfl⟩

/-- The catalog of `Init` is "Deprecated" with one of the nine letters after the initial `D`
deleted, followed by ": ". -/
theorem commonTypos_after_first (c : deprecatedCommentChecker) (s : String) :
    s ∈ c.Init.commonTypos ↔
      ∃ i, 1 ≤ i ∧ i < 10 ∧ s = deleteLetter "Deprecated" i ++ ": " := by
  simp only [deprecatedCommentChecker.Init, List.mem_cons, List.mem_singleton,
    List.not_mem_nil, or_false]
  constructor
  · rintro (rfl | rfl | rfl | rfl | rfl | rfl | rfl | rfl | rfl)
    · exact ⟨1, by decide, by decide, by decide⟩
    · exact ⟨2, by decide, by decide, by decide⟩
    · exact ⟨3, by decide, by decide, by decide⟩
    · exact ⟨4, by decide, by decide, by decide⟩
    · exact ⟨5, by decide, by decide, by decide⟩
    · exact ⟨6, by decide, by decide, by decide⟩
    · exact ⟨7, by decide, by decide, by decide⟩
    · exact ⟨8, by decide, by decide, by decide⟩
    · exact ⟨9, by decide, by decide, by decide⟩
  · rintro ⟨i, h1, h2, rfl⟩
    interval_cases i <;> decide

/-- C16: "eprecated: " is "Deprecated" with one of its ten letters (the first) deleted, followed
by ": ", and it is not in the catalog set up by `Init`; the doc comment
`// eprecated: use X instead` gets no diagnostic. -/
theorem commonTypos_misses_first_letter :
    "eprecated: " = deleteLetter "Deprecated" 0 ++ ": " ∧
    "eprecated: " ∉ newDeprecatedCommentChecker.commonTypos ∧
    newDeprecatedCommentChecker.commonTypos.length = 9 ∧
    VisitDocComment Char.toUpper newDeprecatedCommentChecker
      (commentGroup "eprecated: use X instead\n") = .ok [] :=
  ⟨by decide, by decide, by decide, rfl⟩

/-- Which branch of the loop produced the result of `visitLines`. -/
theorem visitLines_result (U : Char → Char) (c : deprecatedCommentChecker)
    (doc : ast.CommentGroup) (lines : List String) :
    visitLines U c doc lines = .ok [] ∨
    ∃ l ∈ lines, 12 ≤ l.utf8ByteSize ∧
      ((Casing U l ∧ ∃ w, warnCasing (.CommentGroup doc) l = .ok w ∧
          visitLines U c doc lines = .ok [w]) ∨
        visitLines U c doc lines = .ok [warnComma (.CommentGroup doc)] ∨
        visitLines U c doc lines = .ok [warnPattern (.CommentGroup doc)] ∨
        (Typo c l ∧ ∃ w, warnTypo (.CommentGroup doc) l = .ok w ∧
          visitLines U c doc lines = .ok [w])) := by
  have h12 : "Deprecated: ".utf8ByteSize = 12 := by decide
  induction lines with
  | nil => exact Or.inl rfl
  | cons l ls ih =>
    have lift : visitLines U c doc (l :: ls) = visitLines U c doc ls →
        (visitLines U c doc (l :: ls) = .ok [] ∨
        ∃ l' ∈ l :: ls, 12 ≤ l'.utf8ByteSize ∧
          ((Casing U l' ∧ ∃ w, warnCasing (.CommentGroup doc) l' = .ok w ∧
              visitLines U c doc (l :: ls) = .ok [w]) ∨
            visitLines U c doc (l :: ls) = .ok [warnComma (.CommentGroup doc)] ∨
            visitLines U c doc (l :: ls) = .ok [warnPattern (.CommentGroup doc)] ∨
            (Typo c l' ∧ ∃ w, warnTypo (.CommentGroup doc) l' = .ok w ∧
              visitLines U c doc (l :: ls) = .ok [w]))) := by
      intro hstep
      rw [hstep]
      rcases ih with h | ⟨l', hl', hrest⟩
      · exact Or.inl h
      · exact Or.inr ⟨l', List.mem_cons_of_mem _ hl', hrest⟩
    by_cases h1 : l.utf8ByteSize < "Deprecated: ".utf8ByteSize
    · exact lift (by rw [visitLines.eq_2, if_pos h1])
    have hge : 12 ≤ l.utf8ByteSize := by omega
    by_cases h2 : (HasPrefix (ToUpper U l) "DEPRECATED: " && !HasPrefix l "Deprecated: ") = true
    · right
      obtain ⟨w, hw⟩ := warnCasing_ok (.CommentGroup doc) l hge
      have hc : Casing U l := by
        simp only [Bool.and_eq_true, Bool.not_eq_true', ] at h2
        exact h2
      refine ⟨l, List.mem_cons_self _ _, hge, Or.inl ⟨hc, w, hw, ?_⟩⟩
      rw [visitLines_casing U c doc l ls hge hc, hw]
      rfl
    have hnc : ¬ Casing U l := by
      rintro ⟨ha, hb⟩
      exact h2 (by simp [ha, hb])
    by_cases h3 : HasPrefix l "Deprecated, " = true
    · right
      exact ⟨l, List.mem_cons_self _ _, hge,
        Or.inr (Or.inl (visitLines_punctuation U c doc l ls hge hnc h3))⟩
    by_cases h4 : (c.commonPatterns.any fun pat => pat.MatchString l) = true
    · right
      refine ⟨l, List.mem_cons_self _ _, hge, Or.inr (Or.inr (Or.inl ?_))⟩
      rw [visitLines.eq_2, if_neg h1]
      simp only [if_neg h2, if_neg h3, if_pos h4]
    by_cases h5 : (c.commonTypos.any fun prefixWithTypo => HasPrefix l prefixWithTypo) = true
    · right
      obtain ⟨w, hw⟩ := warnTypo_ok (.CommentGroup doc) l
      refine ⟨l, List.mem_cons_self _ _, hge,
        Or.inr (Or.inr (Or.inr ⟨(typos_any_iff c l).mp h5, w, hw, ?_⟩))⟩
      rw [visitLines.eq_2, if_neg h1]
      simp only [if_neg h2, if_neg h3, if_neg h4, if_pos h5, hw]
      rfl
    · apply lift
      rw [visitLines.eq_2, if_neg h1]
      simp only [if_neg h2, if_neg h3, if_neg h4, if_neg h5]

theorem warnCasing_format (cause : ast.Node) (l : String) (w : Warning)
    (h : warnCasing cause l = .ok w) :
    ∃ pre, sliceTo l 12 = .ok pre ∧ w.format = casingFormat ∧ w.args = [.str pre] := by
  have h12 : "DEPRECATED: ".utf8ByteSize = 12 := by decide
  unfold warnCasing at h
  rw [h12] at h
  cases hs : sliceTo l 12 with
  | error e => rw [hs] at h; cases h
  | ok pre =>
    rw [hs] at h
    cases h
    exact ⟨pre, rfl, rfl, rfl⟩

theorem warnComma_format (cause : ast.Node) :
    (warnComma cause).format = "use `:` instead of `,` in `Deprecated, `" :=
  rfl

theorem warnPattern_format (cause : ast.Node) :
    (warnPattern cause).format = "the proper format is `Deprecated: <text>`" :=
  rfl

/-- The typo diagnostic names the characters of the line in front of its first colon. -/
theorem warnTypo_eq (cause : ast.Node) (l : String) :
    warnTypo cause l =
      .ok { node := cause, format := typoFormat, args := [.str ⟨(cut ':' l.data).1⟩] } := by
  unfold warnTypo Split
  cases l.data.length with
  | zero => rfl
  | succ n =>
    rw [splitChars]
    cases (cut ':' l.data).2 <;> rfl

/-- A result that carries the typo format comes from the typo branch. -/
theorem typo_result (U : Char → Char) (c : deprecatedCommentChecker) (doc : ast.CommentGroup)
    (lines : List String) (w : Warning) (h : visitLines U c doc lines = .ok [w])
    (hf : w.format = typoFormat) :
    ∃ l ∈ lines, Typo c l ∧ warnTypo (.CommentGroup doc) l = .ok w := by
  rcases visitLines_result U c doc lines with h0 | ⟨l, hl, -, hcase⟩
  · rw [h0] at h
    cases h
  · rcases hcase with ⟨-, w', hw', hres⟩ | hres | hres | ⟨ht, w', hw', hres⟩
    · rw [hres] at h
      cases h
      obtain ⟨pre, -, hfmt, -⟩ := warnCasing_format _ _ _ hw'
      rw [hfmt] at hf
      exact absurd hf (by decide)
    · rw [hres] at h
      cases h
      rw [warnComma_format] at hf
      exact absurd hf (by decide)
    · rw [hres] at h
      cases h
      rw [warnPattern_format] at hf
      exact absurd hf (by decide)
    · rw [hres] at h
      cases h
      exact ⟨l, hl, ht, hw'⟩

/-- The misspelled word of a line that starts with a catalog entry. -/
theorem typo_word (c : deprecatedCommentChecker) (l t : String)
    (ht : t ∈ c.Init.commonTypos) (hp : HasPrefix l t = true) :
    ∃ word : String, (cut ':' l.data).1 = word.data ∧ word ++ ": " = t ∧ word.length = 9 ∧
      ':' ∉ word.data ∧ ' ' ∉ word.data ∧ ∃ rest, l.data = word.data ++ ':' :: rest := by
  obtain ⟨rest, hrest⟩ := (hasPrefix_iff l t).mp hp
  rw [hrest]
  simp only [deprecatedCommentChecker.Init, List.mem_cons, List.mem_singleton,
    List.not_mem_nil, or_false] at ht
  rcases ht with rfl | rfl | rfl | rfl | rfl | rfl | rfl | rfl | rfl
  · exact ⟨"Dprecated", rfl, by decide, by decide, by decide, by decide, ' ' :: rest, rfl⟩
  · exact ⟨"Derecated", rfl, by decide, by decide, by decide, by decide, ' ' :: rest, rfl⟩
  · exact ⟨"Depecated", rfl, by decide, by decide, by decide, by decide, ' ' :: rest, rfl⟩
  · exact ⟨"Deprcated", rfl, by decide, by decide, by decide, by decide, ' ' :: rest, rfl⟩
  · exact ⟨"Depreated", rfl, by decide, by decide, by decide, by decide, ' ' :: rest, rfl⟩
  · exact ⟨"Deprected", rfl, by decide, by decide, by decide, by decide, ' ' :: rest, rfl⟩
  · exact ⟨"Deprecaed", rfl, by decide, by decide, by decide, by decide, ' ' :: rest, rfl⟩
  · exact ⟨"Deprecatd", rfl, by decide, by decide, by decide, by decide, ' ' :: rest, rfl⟩
  · exact ⟨"Deprecate", rfl, by decide, by decide, by decide, by decide, ' ' :: rest, rfl⟩

/-- C13: whenever `VisitDocComment` emits the typo diagnostic, it does so for a line that starts
with a misspelling of the catalog, and the word the message names is the text of that line up to
its first colon; this word is the nine-letter misspelling the line starts with, that is the
catalog entry without its trailing ": ", and it contains no colon and no space. -/
theorem visitDocComment_typo_word (unicodeToUpper : Char → Char)
    (c : deprecatedCommentChecker) (doc : ast.CommentGroup) (w : Warning)
    (h : VisitDocComment unicodeToUpper c.Init doc = .ok [w]) (hf : w.format = typoFormat) :
    ∃ l ∈ Split doc.Text '\n', ∃ t ∈ c.Init.commonTypos, ∃ word : String,
      HasPrefix l t = true ∧ w.args = [.str word] ∧ word ++ ": " = t ∧ word.length = 9 ∧
      ':' ∉ word.data ∧ ' ' ∉ word.data ∧ ∃ rest, l.data = word.data ++ ':' :: rest := by
  obtain ⟨l, hl, ⟨t, ht, hp⟩, hw⟩ := typo_result unicodeToUpper c.Init doc _ w h hf
  obtain ⟨word, hcut, h1, h2, h3, h4, h5⟩ := typo_word c l t ht hp
  refine ⟨l, hl, t, ht, word, hp, ?_, h1, h2, h3, h4, h5⟩
  rw [warnTypo_eq, hcut] at hw
  cases hw
  rfl

/-- C13 on the doc comment `// Dprecated: use X instead`: the message names `Dprecated`. -/
theorem visitDocComment_typo_word_witness :
    VisitDocComment Char.toUpper newDeprecatedCommentChecker
        (commentGroup "Dprecated: use X instead\n") =
      .ok [{ node := .CommentGroup (commentGroup "Dprecated: use X instead\n"),
             format := typoFormat, args := [.str "Dprecated"] }] ∧
    ∃ l ∈ Split (commentGroup "Dprecated: use X instead\n").Text '\n',
      ∃ t ∈ newDeprecatedCommentChecker.commonTypos, ∃ word : String,
        HasPrefix l t = true ∧ [Arg.str "Dprecated"] = [.str word] ∧ word ++ ": " = t ∧
        word.length = 9 ∧ ':' ∉ word.data ∧ ' ' ∉ word.data ∧
        ∃ rest, l.data = word.data ++ ':' :: rest :=
  have h : VisitDocComment Char.toUpper newDeprecatedCommentChecker
      (commentGroup "Dprecated: use X instead\n") =
      .ok [{ node := .CommentGroup (commentGroup "Dprecated: use X instead\n"),
             format := typoFormat, args := [.str "Dprecated"] }] := rfl
  ⟨h, visitDocComment_typo_word Char.toUpper ⟨[], []⟩ _ _ h rfl⟩

/-- Lines shorter than 12 bytes can be dropped without changing the result. -/
theorem visitLines_filter (U : Char → Char) (c : deprecatedCommentChecker)
    (doc : ast.CommentGroup) (lines : List String) :
    visitLines U c doc (lines.filter fun l => decide (12 ≤ l.utf8ByteSize)) =
      visitLines U c doc lines := by
  induction lines with
  | nil => rfl
  | cons l ls ih =>
    by_cases h : 12 ≤ l.utf8ByteSize
    · rw [List.filter_cons_of_pos (by simpa using h)]
      rcases visitLines_cons_cases U c doc l ls with ⟨h1, h2⟩ | ⟨h1, h2⟩
      · rcases visitLines_cons_cases U c doc l
          (ls.filter fun l => decide (12 ≤ l.utf8ByteSize)) with ⟨-, h3⟩ | ⟨h3, -⟩
        · rw [h2, h3, ih]
        · exact absurd h1 h3
      · rcases visitLines_cons_cases U c doc l
          (ls.filter fun l => decide (12 ≤ l.utf8ByteSize)) with ⟨h3, -⟩ | ⟨-, h3⟩
        · exact absurd h3 h1
        · rw [h2, h3]
    · rw [List.filter_cons_of_neg (by simpa using h), visitLines_short U c doc l ls (by omega)]
      exact ih

theorem utf8Size_of_toNat_lt (ch : Char) (h : ch.toNat < 128) : ch.utf8Size = 1 := by
  unfold Char.utf8Size
  have h1 : ch.val ≤ 0x7F := by
    rw [UInt32.le_def]
    show ch.val.toNat ≤ 127
    unfold Char.toNat at h
    omega
  simp [h1]

theorem utf8Size_of_toUpper (ch : Char) (h : ch.toUpper.toNat < 128) : ch.utf8Size = 1 := by
  apply utf8Size_of_toNat_lt
  unfold Char.toUpper at h
  by_cases hc : ch.toNat ≥ 97 ∧ ch.toNat ≤ 122
  · omega
  · simp only [hc, if_false] at h
    exact h

theorem utf8ByteSize_go_eq (cs : List Char) :
    String.utf8ByteSize.go cs = (cs.map Char.utf8Size).sum := by
  induction cs with
  | nil => rfl
  | cons c cs ih =>
    simp only [String.utf8ByteSize.go, ih, List.map_cons, List.sum_cons]
    omega

theorem utf8ByteSize_of_ascii (cs : List Char) (h : ∀ ch ∈ cs, ch.utf8Size = 1) :
    (String.mk cs).utf8ByteSize = cs.length := by
  show String.utf8ByteSize.go cs = _
  rw [utf8ByteSize_go_eq]
  induction cs with
  | nil => rfl
  | cons c cs ih =>
    simp only [List.map_cons, List.sum_cons, List.length_cons,
      h c (List.mem_cons_self _ _), ih fun ch hch => h ch (List.mem_cons_of_mem _ hch)]
    omega

theorem takeBytes_of_ascii (a rest : List Char) (h : ∀ ch ∈ a, ch.utf8Size = 1) :
    takeBytes a.length (a ++ rest) = a := by
  induction a with
  | nil =>
    cases rest with
    | nil => rfl
    | cons r rs =>
      have hpos : ¬ r.utf8Size ≤ 0 := by
        have := Char.utf8Size_pos r
        omega
      simp [takeBytes, hpos]
  | cons x xs ih =>
    have hx := h x (List.mem_cons_self _ _)
    simp only [List.cons_append, List.length_cons, takeBytes, hx]
    rw [if_pos (by omega)]
    simp only [Nat.add_sub_cancel]
    exact congrArg (x :: ·) (ih fun ch hch => h ch (List.mem_cons_of_mem _ hch))

/-- The first 12 characters of a line with a casing violation, under a table that maps only
ASCII characters into the prefix. -/
theorem casing_prefix (U : Char → Char) (hU : UpperIsAsciiOnPrefix U) (l : String)
    (hc : Casing U l) :
    ∃ a rest, l.data = a ++ rest ∧ a.length = 12 ∧
      a.map Char.toUpper = "DEPRECATED: ".data ∧ (∀ ch ∈ a, ch.utf8Size = 1) ∧
      a ≠ "Deprecated: ".data := by
  obtain ⟨h1, h2⟩ := hc
  unfold HasPrefix ToUpper at h1
  rw [List.isPrefixOf_iff_prefix] at h1
  obtain ⟨t, ht⟩ := h1
  obtain ⟨a, rest, hl, ha, -⟩ := List.map_eq_append_iff.mp ht.symm
  have hmem : ∀ ch ∈ a, U ch ∈ "DEPRECATED: ".data := by
    intro ch hch
    rw [← ha]
    exact List.mem_map_of_mem U hch
  have hup : a.map Char.toUpper = a.map U :=
    List.map_congr_left fun ch hch => hU ch (hmem ch hch)
  have hlen : a.length = 12 := by
    have := congrArg List.length ha
    simpa using this
  refine ⟨a, rest, hl, hlen, hup.trans ha, ?_, ?_⟩
  · intro ch hch
    apply utf8Size_of_toUpper
    rw [hU ch (hmem ch hch)]
    have hall : ∀ x ∈ "DEPRECATED: ".data, x.toNat < 128 := by decide
    exact hall _ (hmem ch hch)
  · intro heq
    have : HasPrefix l "Deprecated: " = true :=
      (hasPrefix_iff l _).mpr ⟨rest, by rw [hl, heq]⟩
    rw [this] at h2
    cases h2

/-- A result that carries the casing format comes from the casing branch. -/
theorem casing_result (U : Char → Char) (c : deprecatedCommentChecker)
    (doc : ast.CommentGroup) (lines : List String) (w : Warning)
    (h : visitLines U c doc lines = .ok [w]) (hf : w.format = casingFormat) :
    ∃ l ∈ lines, 12 ≤ l.utf8ByteSize ∧ Casing U l ∧ warnCasing (.CommentGroup doc) l = .ok w := by
  rcases visitLines_result U c doc lines with h0 | ⟨l, hl, hge, hcase⟩
  · rw [h0] at h
    cases h
  · rcases hcase with ⟨hc, w', hw', hres⟩ | hres | hres | ⟨-, w', hw', hres⟩
    · rw [hres] at h
      cases h
      exact ⟨l, hl, hge, hc, hw'⟩
    · rw [hres] at h
      cases h
      rw [warnComma_format] at hf
      exact absurd hf (by decide)
    · rw [hres] at h
      cases h
      rw [warnPattern_format] at hf
      exact absurd hf (by decide)
    · rw [hres] at h
      cases h
      rw [warnTypo_eq] at hw'
      cases hw'
      exact absurd (show typoFormat = casingFormat from hf) (by decide)

/-- C17: for every comment group, no line shorter than 12 bytes contributes a diagnostic (such
lines can be dropped without changing the result), and `VisitDocComment` never slices out of
range: it always returns, and whenever it emits the casing diagnostic, the line it sliced has at
least 12 bytes, the slice `line[:12]` succeeded, and the 12 bytes it reports are a prefix of the
line that equals "Deprecated: " up to ASCII letter case without being equal to it. The Unicode
upper-case table is assumed to map only ASCII characters to the characters of
"DEPRECATED: ". -/
theorem visitDocComment_slice_in_range (unicodeToUpper : Char → Char)
    (c : deprecatedCommentChecker) (doc : ast.CommentGroup)
    (hU : UpperIsAsciiOnPrefix unicodeToUpper) :
    (∀ lines : List String,
      visitLines unicodeToUpper c doc (lines.filter fun l => decide (12 ≤ l.utf8ByteSize)) =
        visitLines unicodeToUpper c doc lines) ∧
    (∃ ws, VisitDocComment unicodeToUpper c doc = .ok ws) ∧
    (∀ w, VisitDocComment unicodeToUpper c doc = .ok [w] → w.format = casingFormat →
      ∃ l ∈ Split doc.Text '\n', ∃ pre : String,
        12 ≤ l.utf8ByteSize ∧ sliceTo l 12 = .ok pre ∧ w.args = [.str pre] ∧
        pre.utf8ByteSize = 12 ∧ (∃ rest, l.data = pre.data ++ rest) ∧
        pre.data.map Char.toUpper = "Deprecated: ".data.map Char.toUpper ∧
        pre ≠ "Deprecated: ") := by
  refine ⟨visitLines_filter unicodeToUpper c doc, ?_, ?_⟩
  · obtain ⟨ws, hws, -⟩ := visitLines_ok unicodeToUpper c doc (Split doc.Text '\n')
    exact ⟨ws, hws⟩
  · intro w hw hf
    obtain ⟨l, hl, hge, hc, hwc⟩ := casing_result unicodeToUpper c doc _ w hw hf
    obtain ⟨pre, hslice, -, hargs⟩ := warnCasing_format _ _ _ hwc
    obtain ⟨a, rest, hdata, hlen, hupper, hascii, hne⟩ := casing_prefix unicodeToUpper hU l hc
    have hpre : pre = ⟨a⟩ := by
      unfold sliceTo at hslice
      rw [if_pos hge, hdata, ← hlen, takeBytes_of_ascii a rest hascii] at hslice
      cases hslice
      rfl
    subst hpre
    refine ⟨l, hl, ⟨a⟩, hge, hslice, hargs, ?_, ⟨rest, hdata⟩, ?_, ?_⟩
    · rw [utf8ByteSize_of_ascii a hascii, hlen]
    · rw [hupper]
      decide
    · intro heq
      exact hne (congrArg String.data heq)

/-- C17 on the doc comment `// DEPRECATED: use X instead`, with ASCII upper-casing as the table:
the casing diagnostic reports the 12 bytes `DEPRECATED: `. -/
theorem visitDocComment_slice_in_range_witness :
    UpperIsAsciiOnPrefix Char.toUpper ∧
    VisitDocComment Char.toUpper newDeprecatedCommentChecker
        (commentGroup "DEPRECATED: use X instead\n") =
      .ok [{ node := .CommentGroup (commentGroup "DEPRECATED: use X instead\n"),
             format := casingFormat, args := [.str "DEPRECATED: "] }] ∧
    ∃ l ∈ Split (commentGroup "DEPRECATED: use X instead\n").Text '\n', ∃ pre : String,
      12 ≤ l.utf8ByteSize ∧ sliceTo l 12 = .ok pre ∧ [Arg.str "DEPRECATED: "] = [.str pre] ∧
      pre.utf8ByteSize = 12 ∧ (∃ rest, l.data = pre.data ++ rest) ∧
      pre.data.map Char.toUpper = "Deprecated: ".data.map Char.toUpper ∧
      pre ≠ "Deprecated: " :=
  have hU : UpperIsAsciiOnPrefix Char.toUpper := fun _ _ => rfl
  have h : VisitDocComment Char.toUpper newDeprecatedCommentChecker
      (commentGroup "DEPRECATED: use X instead\n") =
      .ok [{ node := .CommentGroup (commentGroup "DEPRECATED: use X instead\n"),
             format := casingFormat, args := [.str "DEPRECATED: "] }] := rfl
  ⟨hU, h, (visitDocComment_slice_in_range Char.toUpper newDeprecatedCommentChecker _ hU).2.2
    _ h rfl⟩

end lint

end kfulint
